import Mathlib

/-!
# Verification of the ml2p Pipeline Configuration & Naming Engine

This file gives a shallow embedding, in Lean 4, of the core of the `ml2p`
repository: the hyperparameter codec (`ml2p.hyperparameters`), the resource
naming utilities (`ml2p/cli_utils.py`), the SageMaker environment resolution
(`ml2p/core.py`), and the prediction invocation recorder (`ml2p/core.py`),
together with theorems settling the specification's claims about them.

Strings are modelled as `List Char` (Python `str`), JSON values as a mutual
inductive family, and fallible operations as `Except`/`Option` results.
The source of `ml2p/hyperparameters.py` is not part of the source tree
(only its tests and callers are), so the codec definitions are modelled
from the specification's description of `HyperparameterCodec`, with the
repository's test suite (`tests/test_hyperparameters.py`) fixing the
concrete error messages and check placement.
-/

namespace ML2P

set_option maxRecDepth 65536

/-- Convert a Lean string literal to the `List Char` representation used
throughout this development. -/
def chars (s : String) : List Char := s.data

/-- The `\x7b` character (left curly brace), used by the JSON printer. -/
def lbrace : Char := Char.ofNat 123

/-- The `\x7d` character (right curly brace), used by the JSON printer. -/
def rbrace : Char := Char.ofNat 125

/-! ## JSON values

`JVal` models a Python JSON-representable value as consumed and produced by
`json.dumps` / `json.loads`: `None`, booleans, numbers (modelled as
integers), strings, lists and dicts.  `JArr` and `JObj` are the spines of
list and dict literals; dicts are association lists in insertion order,
matching Python's order-preserving `dict`. -/

mutual

inductive JVal : Type where
  | null : JVal
  | bool (b : Bool) : JVal
  | num (n : Int) : JVal
  | str (s : List Char) : JVal
  | arr (items : JArr) : JVal
  | obj (entries : JObj) : JVal

inductive JArr : Type where
  | nil : JArr
  | cons (hd : JVal) (tl : JArr) : JArr

inductive JObj : Type where
  | nil : JObj
  | cons (key : List Char) (val : JVal) (tl : JObj) : JObj

end

deriving instance DecidableEq for JVal, JArr, JObj

deriving instance DecidableEq for Except

/-- The character for a decimal digit `n < 10`, as produced by Python's
`str` on integers. -/
def digitChar (n : Nat) : Char := Char.ofNat (48 + n)

/-- Decimal digits of a natural number, most significant first, with
explicit fuel (the recursion divides by ten, so `n` itself is ample fuel). -/
def natCharsAux : Nat → Nat → List Char
  | 0, _ => []
  | fuel + 1, n =>
    if n < 10 then [digitChar n]
    else natCharsAux fuel (n / 10) ++ [digitChar (n % 10)]

/-- Python `str` on a non-negative integer. -/
def natChars (n : Nat) : List Char := natCharsAux (n + 1) n

/-- Python `str` on an integer: an optional minus sign followed by the
decimal digits of the absolute value. -/
def intChars : Int → List Char
  | .ofNat m => natChars m
  | .negSucc m => '-' :: natChars (m + 1)

/-- JSON string escaping for one character: quote and backslash are
backslash-escaped, every other character stands for itself. -/
def escapeChar (c : Char) : List Char :=
  if c = '"' ∨ c = '\\' then ['\\', c] else [c]

/-- JSON string escaping (`json.dumps` on the body of a string). -/
def escapeChars : List Char → List Char
  | [] => []
  | c :: cs => escapeChar c ++ escapeChars cs

/-- A JSON string literal: the escaped body wrapped in double quotes. -/
def dumpStr (s : List Char) : List Char := '"' :: (escapeChars s ++ ['"'])

mutual

/-- `json.dumps` with its default separators (`", "` and `": "`). -/
def dumps : JVal → List Char
  | .null => chars "null"
  | .bool true => chars "true"
  | .bool false => chars "false"
  | .num n => intChars n
  | .str s => dumpStr s
  | .arr items => '[' :: (dumpsArr items ++ [']'])
  | .obj entries => lbrace :: (dumpsObj entries ++ [rbrace])

/-- The comma-separated items of a JSON list literal. -/
def dumpsArr : JArr → List Char
  | .nil => []
  | .cons v .nil => dumps v
  | .cons v (.cons h t) => dumps v ++ (chars ", " ++ dumpsArr (.cons h t))

/-- The comma-separated `"key": value` entries of a JSON dict literal. -/
def dumpsObj : JObj → List Char
  | .nil => []
  | .cons k v .nil => dumpStr k ++ (chars ": " ++ dumps v)
  | .cons k v (.cons k2 v2 t) =>
    dumpStr k ++ (chars ": " ++ dumps v) ++ (chars ", " ++ dumpsObj (.cons k2 v2 t))

end

/-! ## JSON parsing (`json.loads`)

A recursive-descent parser for the output format of `dumps`.  Compound
values carry an explicit fuel parameter, decremented on every recursive
call; `jloads` supplies fuel ample for any input (one unit per input
character plus one). -/

/-- Read a JSON string body up to its closing quote, undoing the
backslash escapes; returns the body and the remaining input. -/
def unescapeTake : List Char → Option (List Char × List Char)
  | [] => none
  | c :: rest =>
    if c = '"' then some ([], rest)
    else if c = '\\' then
      match rest with
      | [] => none
      | c2 :: rest2 => (unescapeTake rest2).map (fun r => (c2 :: r.1, r.2))
    else (unescapeTake rest).map (fun r => (c :: r.1, r.2))

/-- The numeric value of a decimal digit character. -/
def charVal (c : Char) : Nat := c.toNat - 48

/-- Read a decimal numeral, most significant digit first. -/
def charsToNat (ds : List Char) : Nat :=
  ds.foldl (fun a c => 10 * a + charVal c) 0

/-- Parse a maximal non-empty run of decimal digits. -/
def parseNat? (input : List Char) : Option (Nat × List Char) :=
  if input.takeWhile Char.isDigit = [] then none
  else some (charsToNat (input.takeWhile Char.isDigit), input.dropWhile Char.isDigit)

mutual

/-- Parse one JSON value from the front of the input. -/
def parseV : Nat → List Char → Option (JVal × List Char)
  | 0, _ => none
  | fuel + 1, input =>
    match input with
    | [] => none
    | c :: rest =>
      if c = 'n' then
        match rest with
        | 'u' :: 'l' :: 'l' :: r => some (.null, r)
        | _ => none
      else if c = 't' then
        match rest with
        | 'r' :: 'u' :: 'e' :: r => some (.bool true, r)
        | _ => none
      else if c = 'f' then
        match rest with
        | 'a' :: 'l' :: 's' :: 'e' :: r => some (.bool false, r)
        | _ => none
      else if c = '"' then
        (unescapeTake rest).map (fun r => (.str r.1, r.2))
      else if c = '[' then
        match rest with
        | [] => none
        | c2 :: rest2 =>
          if c2 = ']' then some (.arr .nil, rest2)
          else (parseArr fuel (c2 :: rest2)).map (fun r => (.arr r.1, r.2))
      else if c = lbrace then
        match rest with
        | [] => none
        | c2 :: rest2 =>
          if c2 = rbrace then some (.obj .nil, rest2)
          else (parseObj fuel (c2 :: rest2)).map (fun r => (.obj r.1, r.2))
      else if c = '-' then
        (parseNat? rest).map (fun r => (.num (-(r.1 : Int)), r.2))
      else if c.isDigit then
        (parseNat? (c :: rest)).map (fun r => (.num (r.1 : Int), r.2))
      else none

/-- Parse the items of a non-empty JSON list literal, up to and including
the closing bracket. -/
def parseArr : Nat → List Char → Option (JArr × List Char)
  | 0, _ => none
  | fuel + 1, input =>
    match parseV fuel input with
    | none => none
    | some (v, r) =>
      match r with
      | ']' :: rest => some (.cons v .nil, rest)
      | ',' :: ' ' :: rest => (parseArr fuel rest).map (fun t => (.cons v t.1, t.2))
      | _ => none

/-- Parse the entries of a non-empty JSON dict literal, up to and
including the closing brace. -/
def parseObj : Nat → List Char → Option (JObj × List Char)
  | 0, _ => none
  | fuel + 1, input =>
    match input with
    | '"' :: rest =>
      match unescapeTake rest with
      | none => none
      | some (k, r) =>
        match r with
        | ':' :: ' ' :: r2 =>
          match parseV fuel r2 with
          | none => none
          | some (v, r3) =>
            match r3 with
            | [] => none
            | c :: r4 =>
              if c = rbrace then some (.cons k v .nil, r4)
              else
                match c, r4 with
                | ',', ' ' :: r5 =>
                  (parseObj fuel r5).map (fun t => (.cons k v t.1, t.2))
                | _, _ => none
        | _ => none
    | _ => none

end

/-- `json.loads` on the output format of `dumps`: parse one value and
require the whole input to be consumed. -/
def jloads (s : List Char) : Option JVal :=
  match parseV (s.length + 1) s with
  | some (v, []) => some v
  | _ => none

/-! ## Printer/parser round trip -/

/-- A continuation is numeral-safe when it does not begin with a decimal
digit, so that a numeral printed before it parses back maximally. -/
def NumSafe : List Char → Prop
  | [] => True
  | c :: _ => c.isDigit = false

theorem takeWhile_append_all {p : Char → Bool} {l r : List Char}
    (h : ∀ c ∈ l, p c = true) : (l ++ r).takeWhile p = l ++ r.takeWhile p := by
  induction l with
  | nil => simp
  | cons c cs ih =>
    have hc : p c = true := h c (by simp)
    simp only [List.cons_append, List.takeWhile_cons, hc, if_true]
    rw [ih (fun x hx => h x (by simp [hx]))]

theorem dropWhile_append_all {p : Char → Bool} {l r : List Char}
    (h : ∀ c ∈ l, p c = true) : (l ++ r).dropWhile p = r.dropWhile p := by
  induction l with
  | nil => simp
  | cons c cs ih =>
    have hc : p c = true := h c (by simp)
    simp only [List.cons_append, List.dropWhile_cons, hc, if_true]
    exact ih (fun x hx => h x (by simp [hx]))

theorem digitChar_isDigit : ∀ d : Nat, d < 10 → (digitChar d).isDigit = true := by decide

theorem charVal_digitChar : ∀ d : Nat, d < 10 → charVal (digitChar d) = d := by decide

theorem natCharsAux_spec : ∀ (fuel n : Nat), n < fuel →
    natCharsAux fuel n ≠ [] ∧ (∀ c ∈ natCharsAux fuel n, c.isDigit = true) ∧
      charsToNat (natCharsAux fuel n) = n := by
  intro fuel
  induction fuel with
  | zero => omega
  | succ fuel ih =>
    intro n hn
    by_cases h10 : n < 10
    · refine ⟨by simp [natCharsAux, h10], ?_, ?_⟩
      · intro c hc
        simp only [natCharsAux, h10, if_true, List.mem_singleton] at hc
        subst hc
        exact digitChar_isDigit n h10
      · simp [natCharsAux, h10, charsToNat, charVal_digitChar n h10]
    · have hdiv : n / 10 < fuel := by
        have := Nat.div_lt_self (by omega : 0 < n) (by omega : 1 < 10)
        omega
      obtain ⟨hne, hdig, hval⟩ := ih (n / 10) hdiv
      refine ⟨by simp [natCharsAux, h10], ?_, ?_⟩
      · intro c hc
        simp only [natCharsAux, h10, if_false, List.mem_append, List.mem_singleton] at hc
        rcases hc with hc | hc
        · exact hdig c hc
        · subst hc
          exact digitChar_isDigit _ (Nat.mod_lt n (by omega))
      · simp only [natCharsAux, h10, if_false, charsToNat, List.foldl_append]
        simp only [charsToNat] at hval
        simp [hval, charVal_digitChar _ (Nat.mod_lt n (by omega)), List.foldl]
        omega

theorem natChars_ne_nil (n : Nat) : natChars n ≠ [] :=
  (natCharsAux_spec (n + 1) n (Nat.lt_succ_self n)).1

theorem natChars_all_digit (n : Nat) : ∀ c ∈ natChars n, c.isDigit = true :=
  (natCharsAux_spec (n + 1) n (Nat.lt_succ_self n)).2.1

theorem charsToNat_natChars (n : Nat) : charsToNat (natChars n) = n :=
  (natCharsAux_spec (n + 1) n (Nat.lt_succ_self n)).2.2

theorem takeWhile_numSafe {rest : List Char} (h : NumSafe rest) :
    rest.takeWhile Char.isDigit = [] := by
  cases rest with
  | nil => rfl
  | cons c cs => simp_all [NumSafe, List.takeWhile_cons]

theorem dropWhile_numSafe {rest : List Char} (h : NumSafe rest) :
    rest.dropWhile Char.isDigit = rest := by
  cases rest with
  | nil => rfl
  | cons c cs => simp_all [NumSafe, List.dropWhile_cons]

theorem parseNat?_natChars (n : Nat) (rest : List Char) (h : NumSafe rest) :
    parseNat? (natChars n ++ rest) = some (n, rest) := by
  have htake : (natChars n ++ rest).takeWhile Char.isDigit = natChars n := by
    rw [takeWhile_append_all (natChars_all_digit n), takeWhile_numSafe h, List.append_nil]
  have hdrop : (natChars n ++ rest).dropWhile Char.isDigit = rest := by
    rw [dropWhile_append_all (natChars_all_digit n), dropWhile_numSafe h]
  rw [parseNat?, htake, hdrop, if_neg (natChars_ne_nil n), charsToNat_natChars]

theorem unescapeTake_escape : ∀ (s rest : List Char),
    unescapeTake (escapeChars s ++ '"' :: rest) = some (s, rest)
  | [], rest => by
    rw [show escapeChars [] ++ '"' :: rest = '"' :: rest from rfl, unescapeTake.eq_def]
    simp
  | c :: cs, rest => by
    by_cases hc : c = '"' ∨ c = '\\'
    · have he : escapeChars (c :: cs) = '\\' :: c :: escapeChars cs := by
        simp [escapeChars, escapeChar, hc]
      rw [he, List.cons_append, List.cons_append, unescapeTake.eq_def]
      simp only [if_neg (show ¬ ('\\' : Char) = '"' by decide), if_pos rfl,
        unescapeTake_escape cs rest]
      rfl
    · push_neg at hc
      have he : escapeChars (c :: cs) = c :: escapeChars cs := by
        simp only [escapeChars, escapeChar]
        rw [if_neg (by tauto)]
        rfl
      rw [he, List.cons_append, unescapeTake.eq_def]
      simp only [if_neg hc.1, if_neg hc.2, unescapeTake_escape cs rest]
      rfl

/-! `needV` computes fuel sufficient for `parseV` to parse a printed value. -/

mutual

def needV : JVal → Nat
  | .arr items => 1 + needArr items
  | .obj entries => 1 + needObj entries
  | _ => 1

def needArr : JArr → Nat
  | .nil => 0
  | .cons h .nil => 1 + needV h
  | .cons h (.cons h2 t2) => 1 + max (needV h) (needArr (.cons h2 t2))

def needObj : JObj → Nat
  | .nil => 0
  | .cons _ v .nil => 1 + needV v
  | .cons _ v (.cons k2 v2 t2) => 1 + max (needV v) (needObj (.cons k2 v2 t2))

end

theorem one_le_needV : ∀ v : JVal, 1 ≤ needV v
  | .null => le_refl 1
  | .bool _ => le_refl 1
  | .num _ => le_refl 1
  | .str _ => le_refl 1
  | .arr items => by simp [needV]
  | .obj entries => by simp [needV]

theorem numSafe_cons {c : Char} (h : c.isDigit = false) (rest : List Char) :
    NumSafe (c :: rest) := h

theorem isDigit_ne {c : Char} (h : c.isDigit = true) :
    ¬c = 'n' ∧ ¬c = 't' ∧ ¬c = 'f' ∧ ¬c = '"' ∧ ¬c = '[' ∧ ¬c = lbrace ∧ ¬c = '-' := by
  refine ⟨?_, ?_, ?_, ?_, ?_, ?_, ?_⟩ <;>
    · intro heq
      subst heq
      exact absurd h (by decide)

theorem dumps_head (v : JVal) : ∃ c cs, dumps v = c :: cs ∧ ¬c = ']' := by
  cases v with
  | null => exact ⟨'n', _, rfl, by decide⟩
  | bool b =>
    cases b with
    | false => exact ⟨'f', _, rfl, by decide⟩
    | true => exact ⟨'t', _, rfl, by decide⟩
  | num n =>
    cases n with
    | ofNat m =>
      obtain ⟨c, cs, hcons⟩ := List.exists_cons_of_ne_nil (natChars_ne_nil m)
      have hcd : c.isDigit = true := natChars_all_digit m c (by rw [hcons]; simp)
      exact ⟨c, cs, hcons, fun heq => by subst heq; exact absurd hcd (by decide)⟩
    | negSucc m => exact ⟨'-', _, rfl, by decide⟩
  | str s => exact ⟨'"', _, rfl, by decide⟩
  | arr items => exact ⟨'[', _, by rw [dumps], by decide⟩
  | obj entries => exact ⟨lbrace, _, by rw [dumps], by decide⟩

theorem dumpsArr_head (h : JVal) (t : JArr) :
    ∃ c cs, dumpsArr (.cons h t) = c :: cs ∧ ¬c = ']' := by
  obtain ⟨c, cs, hd, hne⟩ := dumps_head h
  cases t with
  | nil => exact ⟨c, cs, by rw [dumpsArr, hd], hne⟩
  | cons h2 t2 => exact ⟨c, _, by rw [dumpsArr, hd, List.cons_append], hne⟩

theorem dumpsObj_head (k : List Char) (v : JVal) (t : JObj) :
    ∃ cs, dumpsObj (.cons k v t) = '"' :: cs := by
  cases t with
  | nil => exact ⟨_, by rw [dumpsObj, dumpStr, List.cons_append]⟩
  | cons k2 v2 t2 => exact ⟨_, by rw [dumpsObj, dumpStr, List.cons_append, List.cons_append]⟩

mutual

theorem parseV_dumps : ∀ (v : JVal) (fuel : Nat) (rest : List Char),
    needV v ≤ fuel → NumSafe rest →
    parseV fuel (dumps v ++ rest) = some (v, rest)
  | .null, fuel, rest, hf, _ => by
    obtain ⟨f, rfl⟩ : ∃ f, fuel = f + 1 :=
      ⟨fuel - 1, by have := one_le_needV .null; omega⟩
    rw [show dumps .null ++ rest = 'n' :: 'u' :: 'l' :: 'l' :: rest from rfl]
    simp [parseV]
  | .bool true, fuel, rest, hf, _ => by
    obtain ⟨f, rfl⟩ : ∃ f, fuel = f + 1 :=
      ⟨fuel - 1, by have := one_le_needV (.bool true); omega⟩
    rw [show dumps (.bool true) ++ rest = 't' :: 'r' :: 'u' :: 'e' :: rest from rfl]
    simp [parseV]
  | .bool false, fuel, rest, hf, _ => by
    obtain ⟨f, rfl⟩ : ∃ f, fuel = f + 1 :=
      ⟨fuel - 1, by have := one_le_needV (.bool false); omega⟩
    rw [show dumps (.bool false) ++ rest = 'f' :: 'a' :: 'l' :: 's' :: 'e' :: rest from rfl]
    simp [parseV]
  | .num (.ofNat m), fuel, rest, hf, hr => by
    obtain ⟨f, rfl⟩ : ∃ f, fuel = f + 1 :=
      ⟨fuel - 1, by have := one_le_needV (.num (.ofNat m)); omega⟩
    obtain ⟨c, cs, hcons⟩ := List.exists_cons_of_ne_nil (natChars_ne_nil m)
    have hcd : c.isDigit = true := natChars_all_digit m c (by rw [hcons]; simp)
    obtain ⟨h1, h2, h3, h4, h5, h6, h7⟩ := isDigit_ne hcd
    rw [show dumps (.num (.ofNat m)) ++ rest = natChars m ++ rest from rfl, hcons,
      List.cons_append]
    simp only [parseV, if_neg h1, if_neg h2, if_neg h3, if_neg h4, if_neg h5, if_neg h6,
      if_neg h7, hcd, if_true]
    rw [← List.cons_append, ← hcons, parseNat?_natChars m rest hr]
    rfl
  | .num (.negSucc m), fuel, rest, hf, hr => by
    obtain ⟨f, rfl⟩ : ∃ f, fuel = f + 1 :=
      ⟨fuel - 1, by have := one_le_needV (.num (.negSucc m)); omega⟩
    rw [show dumps (.num (.negSucc m)) ++ rest = '-' :: (natChars (m + 1) ++ rest) from rfl]
    simp only [parseV, if_neg (show ¬('-' : Char) = 'n' by decide),
      if_neg (show ¬('-' : Char) = 't' by decide), if_neg (show ¬('-' : Char) = 'f' by decide),
      if_neg (show ¬('-' : Char) = '"' by decide), if_neg (show ¬('-' : Char) = '[' by decide),
      if_neg (show ¬ '-' = lbrace by decide), if_pos rfl]
    rw [parseNat?_natChars (m + 1) rest hr]
    simp [Int.negSucc_eq]
  | .str s, fuel, rest, hf, _ => by
    obtain ⟨f, rfl⟩ : ∃ f, fuel = f + 1 :=
      ⟨fuel - 1, by have := one_le_needV (.str s); omega⟩
    rw [show dumps (.str s) ++ rest = '"' :: (escapeChars s ++ '"' :: rest) by
        rw [dumps, dumpStr]; simp]
    simp only [parseV, if_neg (show ¬('"' : Char) = 'n' by decide),
      if_neg (show ¬('"' : Char) = 't' by decide), if_neg (show ¬('"' : Char) = 'f' by decide),
      if_pos rfl]
    rw [unescapeTake_escape s rest]
    rfl
  | .arr .nil, fuel, rest, hf, _ => by
    obtain ⟨f, rfl⟩ : ∃ f, fuel = f + 1 :=
      ⟨fuel - 1, by have := one_le_needV (.arr .nil); omega⟩
    rw [show dumps (.arr .nil) ++ rest = '[' :: ']' :: rest by rw [dumps, dumpsArr]; simp]
    simp [parseV]
  | .arr (.cons h t), fuel, rest, hf, _ => by
    obtain ⟨f, rfl⟩ : ∃ f, fuel = f + 1 :=
      ⟨fuel - 1, by have := one_le_needV (.arr (.cons h t)); omega⟩
    obtain ⟨c2, cs2, harr, hne⟩ := dumpsArr_head h t
    rw [show dumps (.arr (.cons h t)) ++ rest =
        '[' :: (dumpsArr (.cons h t) ++ ']' :: rest) by rw [dumps]; simp, harr,
      List.cons_append]
    simp only [parseV, if_neg (show ¬('[' : Char) = 'n' by decide),
      if_neg (show ¬('[' : Char) = 't' by decide), if_neg (show ¬('[' : Char) = 'f' by decide),
      if_neg (show ¬('[' : Char) = '"' by decide), if_pos rfl, if_neg hne]
    rw [← List.cons_append, ← harr,
      parseArr_dumps h t f rest (by simp only [needV] at hf; omega)]
    rfl
  | .obj .nil, fuel, rest, hf, _ => by
    obtain ⟨f, rfl⟩ : ∃ f, fuel = f + 1 :=
      ⟨fuel - 1, by have := one_le_needV (.obj .nil); omega⟩
    rw [show dumps (.obj .nil) ++ rest = lbrace :: rbrace :: rest by rw [dumps, dumpsObj]; simp]
    simp only [parseV, if_neg (show ¬lbrace = 'n' by decide),
      if_neg (show ¬lbrace = 't' by decide), if_neg (show ¬lbrace = 'f' by decide),
      if_neg (show ¬lbrace = '"' by decide), if_neg (show ¬lbrace = '[' by decide),
      if_pos rfl, if_pos (show rbrace = rbrace from rfl)]
    simp
  | .obj (.cons k v t), fuel, rest, hf, _ => by
    obtain ⟨f, rfl⟩ : ∃ f, fuel = f + 1 :=
      ⟨fuel - 1, by have := one_le_needV (.obj (.cons k v t)); omega⟩
    obtain ⟨cs2, hobj⟩ := dumpsObj_head k v t
    rw [show dumps (.obj (.cons k v t)) ++ rest =
        lbrace :: (dumpsObj (.cons k v t) ++ rbrace :: rest) by rw [dumps]; simp, hobj,
      List.cons_append]
    simp only [parseV, if_neg (show ¬lbrace = 'n' by decide),
      if_neg (show ¬lbrace = 't' by decide), if_neg (show ¬lbrace = 'f' by decide),
      if_neg (show ¬lbrace = '"' by decide), if_neg (show ¬lbrace = '[' by decide),
      if_pos rfl, if_neg (show ¬('"' : Char) = rbrace by decide)]
    rw [← List.cons_append, ← hobj,
      parseObj_dumps k v t f rest (by simp only [needV] at hf; omega)]
    rfl
termination_by v _ _ _ _ => sizeOf v

theorem parseArr_dumps : ∀ (h : JVal) (t : JArr) (fuel : Nat) (rest : List Char),
    needArr (.cons h t) ≤ fuel →
    parseArr fuel (dumpsArr (.cons h t) ++ ']' :: rest) = some (.cons h t, rest)
  | h, .nil, fuel, rest, hf => by
    obtain ⟨f, rfl⟩ : ∃ f, fuel = f + 1 :=
      ⟨fuel - 1, by simp only [needArr] at hf; omega⟩
    rw [show dumpsArr (.cons h .nil) ++ ']' :: rest = dumps h ++ ']' :: rest by
        rw [dumpsArr]]
    simp only [parseArr]
    rw [parseV_dumps h f (']' :: rest) (by simp only [needArr] at hf; omega)
      (numSafe_cons (by decide) _)]
    simp
  | h, .cons h2 t2, fuel, rest, hf => by
    obtain ⟨f, rfl⟩ : ∃ f, fuel = f + 1 :=
      ⟨fuel - 1, by simp only [needArr] at hf; omega⟩
    rw [show dumpsArr (.cons h (.cons h2 t2)) ++ ']' :: rest =
        dumps h ++ (',' :: ' ' :: (dumpsArr (.cons h2 t2) ++ ']' :: rest)) by
        rw [dumpsArr]; simp [chars]]
    simp only [parseArr]
    rw [parseV_dumps h f (',' :: ' ' :: (dumpsArr (.cons h2 t2) ++ ']' :: rest))
      (by simp only [needArr] at hf; omega)
      (numSafe_cons (by decide) (' ' :: (dumpsArr (.cons h2 t2) ++ ']' :: rest)))]
    simp [parseArr_dumps h2 t2 f rest (by simp only [needArr] at hf; omega)]
termination_by h t _ _ _ => sizeOf (JArr.cons h t)

theorem parseObj_dumps : ∀ (k : List Char) (v : JVal) (t : JObj) (fuel : Nat)
    (rest : List Char), needObj (.cons k v t) ≤ fuel →
    parseObj fuel (dumpsObj (.cons k v t) ++ rbrace :: rest) = some (.cons k v t, rest)
  | k, v, .nil, fuel, rest, hf => by
    obtain ⟨f, rfl⟩ : ∃ f, fuel = f + 1 :=
      ⟨fuel - 1, by simp only [needObj] at hf; omega⟩
    rw [show dumpsObj (.cons k v .nil) ++ rbrace :: rest =
        '"' :: (escapeChars k ++ '"' :: (':' :: ' ' :: (dumps v ++ rbrace :: rest))) by
        rw [dumpsObj, dumpStr]; simp [chars]]
    simp only [parseObj]
    rw [unescapeTake_escape k _]
    simp [parseV_dumps v f (rbrace :: rest) (by simp only [needObj] at hf; omega)
      (numSafe_cons (by decide) rest)]
  | k, v, .cons k2 v2 t2, fuel, rest, hf => by
    obtain ⟨f, rfl⟩ : ∃ f, fuel = f + 1 :=
      ⟨fuel - 1, by simp only [needObj] at hf; omega⟩
    rw [show dumpsObj (.cons k v (.cons k2 v2 t2)) ++ rbrace :: rest =
        '"' :: (escapeChars k ++ '"' :: (':' :: ' ' :: (dumps v ++
          ',' :: ' ' :: (dumpsObj (.cons k2 v2 t2) ++ rbrace :: rest)))) by
        rw [dumpsObj, dumpStr]; simp [chars]]
    simp only [parseObj]
    rw [unescapeTake_escape k _]
    simp [parseV_dumps v f (',' :: ' ' :: (dumpsObj (.cons k2 v2 t2) ++ rbrace :: rest))
        (by simp only [needObj] at hf; omega)
        (numSafe_cons (by decide) (' ' :: (dumpsObj (.cons k2 v2 t2) ++ rbrace :: rest))),
      parseObj_dumps k2 v2 t2 f rest (by simp only [needObj] at hf; omega),
      if_neg (show ¬(',' : Char) = rbrace by decide)]
termination_by k v t _ _ _ => sizeOf (JObj.cons k v t)

end

mutual

theorem needV_le : ∀ v : JVal, needV v ≤ (dumps v).length + 1
  | .null => by decide
  | .bool true => by decide
  | .bool false => by decide
  | .num n => by simp only [needV]; omega
  | .str s => by simp only [needV]; omega
  | .arr .nil => by decide
  | .arr (.cons h t) => by
    have := needArr_le h t
    simp only [needV, dumps, List.length_cons, List.length_append, List.length_nil]
    omega
  | .obj .nil => by decide
  | .obj (.cons k v t) => by
    have := needObj_le k v t
    simp only [needV, dumps, List.length_cons, List.length_append, List.length_nil]
    omega
termination_by v => sizeOf v

theorem needArr_le : ∀ (h : JVal) (t : JArr),
    needArr (.cons h t) ≤ (dumpsArr (.cons h t)).length + 2
  | h, .nil => by
    have := needV_le h
    simp only [needArr, dumpsArr]
    omega
  | h, .cons h2 t2 => by
    have hv := needV_le h
    have ht := needArr_le h2 t2
    obtain ⟨c, cs, hd, _⟩ := dumps_head h
    have hlen : 0 < (dumps h).length := by rw [hd]; simp
    simp only [needArr, dumpsArr, List.length_append] at *
    rcases Nat.le_total (needV h) (needArr (.cons h2 t2)) with hm | hm
    · rw [Nat.max_eq_right hm]; omega
    · rw [Nat.max_eq_left hm]; omega
termination_by h t => sizeOf (JArr.cons h t)

theorem needObj_le : ∀ (k : List Char) (v : JVal) (t : JObj),
    needObj (.cons k v t) ≤ (dumpsObj (.cons k v t)).length + 2
  | k, v, .nil => by
    have := needV_le v
    simp only [needObj, dumpsObj, List.length_append]
    omega
  | k, v, .cons k2 v2 t2 => by
    have hv := needV_le v
    have ht := needObj_le k2 v2 t2
    have hc1 : (chars ": ").length = 2 := rfl
    have hc2 : (chars ", ").length = 2 := rfl
    simp only [needObj, dumpsObj, List.length_append] at *
    rcases Nat.le_total (needV v) (needObj (.cons k2 v2 t2)) with hm | hm
    · rw [Nat.max_eq_right hm]; omega
    · rw [Nat.max_eq_left hm]; omega
termination_by k v t => sizeOf (JObj.cons k v t)

end

/-- The central printer/parser inverse: `json.loads` recovers any value
printed by `json.dumps`. -/
theorem jloads_dumps (v : JVal) : jloads (dumps v) = some v := by
  have h := parseV_dumps v ((dumps v).length + 1) []
    (le_trans (needV_le v) (by omega)) trivial
  rw [List.append_nil] at h
  simp [jloads, h]

/-! ## The hyperparameter codec (`ml2p.hyperparameters`)

The module `ml2p/hyperparameters.py` itself is not in the source tree; the
definitions below are modelled from the specification of
`HyperparameterCodec` (spec section 4.1), with `tests/test_hyperparameters.py`
fixing the error messages and the placement of each check. -/

/-- Modelled from the spec: `HyperParameterEncodingError`, raised by
`encode` when a key segment contains a dot, a dotted key or a JSON-encoded
value exceeds 256 characters, or more than 100 flat entries result. -/
inductive HyperParameterEncodingError : Type where
  | keyFormat (key : List Char)
  | keyLength (key : List Char)
  | valueLength (value : List Char) (key : List Char)
  | tooMany (count : Nat)
deriving DecidableEq

/-- Modelled from the spec: the value-decoding error surfaced by `decode`
on a malformed JSON value string. -/
inductive HyperParameterDecodingError : Type where
  | badJson (value : List Char)
deriving DecidableEq

mutual

/-- Modelled from the spec: the recursive walk of `encode`.  For each
entry the key segment is rejected if it contains a literal dot, the
accumulated dotted key is rejected if longer than 256 characters; mapping
values are recursed into with the dotted prefix extended, other values
are JSON-encoded (rejected if longer than 256 characters) and emitted. -/
def encodeObj (pre : List Char) :
    JObj → Except HyperParameterEncodingError (List (List Char × List Char))
  | .nil => .ok []
  | .cons k v tl =>
    if '.' ∈ k then .error (.keyFormat k)
    else if 256 < (pre ++ k).length then .error (.keyLength (pre ++ k))
    else
      match encodeVal (pre ++ k) v with
      | .error e => .error e
      | .ok head =>
        match encodeObj pre tl with
        | .error e => .error e
        | .ok rest => .ok (head ++ rest)

/-- Modelled from the spec: encoding of one value under its full dotted
key; mappings are recursed into, scalars/lists become JSON text. -/
def encodeVal (fullKey : List Char) :
    JVal → Except HyperParameterEncodingError (List (List Char × List Char))
  | .obj entries => encodeObj (fullKey ++ ['.']) entries
  | v =>
    if 256 < (dumps v).length then .error (.valueLength (dumps v) fullKey)
    else .ok [(fullKey, dumps v)]

end

/-- Modelled from the spec: `encode` flattens the mapping and then rejects
a result of more than 100 flat entries (the SageMaker platform limit). -/
def encode (config : JObj) :
    Except HyperParameterEncodingError (List (List Char × List Char)) :=
  match encodeObj [] config with
  | .error e => .error e
  | .ok entries =>
    if 100 < entries.length then .error (.tooMany entries.length)
    else .ok entries

/-- Python `key.split(".")`: dot-separated segments (an empty string
splits to one empty segment). -/
def splitDots : List Char → List (List Char)
  | [] => [[]]
  | c :: rest =>
    if c = '.' then [] :: splitDots rest
    else
      match splitDots rest with
      | [] => [[c]]
      | seg :: segs => (c :: seg) :: segs

/-- Join path segments with dots (inverse of `splitDots` on dot-free
segments). -/
def joinDots : List (List Char) → List Char
  | [] => []
  | [seg] => seg
  | seg :: seg2 :: rest => seg ++ '.' :: joinDots (seg2 :: rest)

/-- Does this decoded flat entry's path start with segment `p`? -/
def headIs (p : List Char) (e : List (List Char) × JVal) : Bool :=
  match e.1 with
  | [] => false
  | q :: _ => decide (q = p)

/-- Fuel weight of one decoded flat entry. -/
def pathWeight (e : List (List Char) × JVal) : Nat := e.1.length + 1

/-- Fuel weight of a list of decoded flat entries. -/
def entriesWeight (l : List (List (List Char) × JVal)) : Nat :=
  (l.map pathWeight).sum

/-- Modelled from the spec: re-nest split flat entries sharing a path
prefix into mappings, in first-appearance order.  An entry whose single
remaining segment is the group head becomes a leaf; a group of entries
sharing a head segment with longer paths becomes a nested mapping. -/
def unflattenAux : Nat → List (List (List Char) × JVal) → JObj
  | 0, _ => .nil
  | _ + 1, [] => .nil
  | fuel + 1, (path, v) :: rest =>
    match path with
    | [] => unflattenAux fuel rest
    | p :: ps =>
      let group := ((path, v) :: rest).filter (headIs p)
      let others := rest.filter (fun e => !headIs p e)
      match ps with
      | [] => .cons p v (unflattenAux fuel others)
      | _ :: _ =>
        .cons p (.obj (unflattenAux fuel (group.map (fun e => (e.1.tail, e.2)))))
          (unflattenAux fuel others)

/-- Modelled from the spec: split every key on dots and JSON-decode every
value, surfacing a value-decoding error to the caller. -/
def decodeEntries : List (List Char × List Char) →
    Except HyperParameterDecodingError (List (List (List Char) × JVal))
  | [] => .ok []
  | (k, v) :: rest =>
    match jloads v with
    | none => .error (.badJson v)
    | some jv =>
      match decodeEntries rest with
      | .error e => .error e
      | .ok tl => .ok ((splitDots k, jv) :: tl)

/-- Modelled from the spec: `decode`, the inverse of `encode`. -/
def decode (flat : List (List Char × List Char)) :
    Except HyperParameterDecodingError JObj :=
  match decodeEntries flat with
  | .error e => .error e
  | .ok pairs => .ok (unflattenAux (entriesWeight pairs + 1) pairs)

/-! Pure flattening (paths as segment lists), used to state properties of
`encode` and `decode`. -/

mutual

/-- The (segment-path, leaf-value) pairs of a nested mapping, in
iteration order. -/
def flattenObj : JObj → List (List (List Char) × JVal)
  | .nil => []
  | .cons k v tl => flattenVal k v ++ flattenObj tl

/-- Flat entries contributed by one key/value pair. -/
def flattenVal (k : List Char) : JVal → List (List (List Char) × JVal)
  | .obj entries => (flattenObj entries).map (fun e => (k :: e.1, e.2))
  | v => [([k], v)]

end

/-- Is `k` a key of the mapping? -/
def keyMem (k : List Char) : JObj → Bool
  | .nil => false
  | .cons k2 _ tl => decide (k = k2) || keyMem k tl

mutual

/-- Keys are pairwise distinct at every mapping level reachable through
mappings (every Python dict satisfies this). -/
def noDupKeysObj : JObj → Bool
  | .nil => true
  | .cons k v tl => !keyMem k tl && noDupKeysVal v && noDupKeysObj tl

def noDupKeysVal : JVal → Bool
  | .obj entries => noDupKeysObj entries
  | _ => true

end

mutual

/-- No empty sub-mapping occurs at any mapping level reachable through
mappings (the round-trip precondition of the spec). -/
def noEmptySubObj : JObj → Bool
  | .nil => true
  | .cons _ v tl => noEmptySubVal v && noEmptySubObj tl

def noEmptySubVal : JVal → Bool
  | .obj .nil => false
  | .obj (.cons k v tl) => noEmptySubObj (.cons k v tl)
  | _ => true

end

/-- Association-list lookup on flat hyperparameter mappings (Python
`dict` indexing). -/
def flatLookup (k : List Char) : List (List Char × List Char) → Option (List Char)
  | [] => none
  | (k2, v) :: tl => if k = k2 then some v else flatLookup k tl

/-! ## Round-trip proof for the codec -/

theorem splitDots_ne_nil : ∀ s : List Char, ∃ s0 ss, splitDots s = s0 :: ss
  | [] => ⟨[], [], rfl⟩
  | c :: rest => by
    by_cases hc : c = '.'
    · exact ⟨[], splitDots rest, by simp [splitDots, hc]⟩
    · obtain ⟨s0, ss, h⟩ := splitDots_ne_nil rest
      exact ⟨c :: s0, ss, by simp [splitDots, hc, h]⟩

theorem splitDots_append_free : ∀ (seg rest : List Char) (s0 : List Char)
    (ss : List (List Char)), '.' ∉ seg → splitDots rest = s0 :: ss →
    splitDots (seg ++ rest) = (seg ++ s0) :: ss
  | [], rest, s0, ss, _, h => by simpa using h
  | c :: seg', rest, s0, ss, hfree, h => by
    have hc : ¬c = '.' := fun heq => hfree (heq ▸ List.mem_cons_self c seg')
    have ih := splitDots_append_free seg' rest s0 ss
      (fun hmem => hfree (List.mem_cons_of_mem c hmem)) h
    simp [splitDots, hc, ih]

theorem splitDots_joinDots : ∀ segs : List (List Char), segs ≠ [] →
    (∀ seg ∈ segs, '.' ∉ seg) → splitDots (joinDots segs) = segs
  | [], h, _ => absurd rfl h
  | [seg], _, hfree => by
    have : splitDots (seg ++ ([] : List Char)) = (seg ++ []) :: [] :=
      splitDots_append_free seg [] [] [] (hfree seg (by simp)) rfl
    simpa [joinDots] using this
  | seg :: seg2 :: rest, _, hfree => by
    have ih := splitDots_joinDots (seg2 :: rest) (by simp)
      (fun s hs => hfree s (List.mem_cons_of_mem seg hs))
    have hdot : splitDots ('.' :: joinDots (seg2 :: rest)) =
        [] :: (seg2 :: rest) := by simp [splitDots, ih]
    have := splitDots_append_free seg ('.' :: joinDots (seg2 :: rest)) [] (seg2 :: rest)
      (hfree seg (by simp)) hdot
    simpa [joinDots] using this

theorem flattenVal_head : ∀ (k : List Char) (v : JVal) (e : List (List Char) × JVal),
    e ∈ flattenVal k v → ∃ p, e.1 = k :: p := by
  intro k v e he
  cases v with
  | obj entries =>
    simp only [flattenVal, List.mem_map] at he
    obtain ⟨a, _, rfl⟩ := he
    exact ⟨a.1, rfl⟩
  | null => simp only [flattenVal, List.mem_singleton] at he; exact ⟨[], by rw [he]⟩
  | bool b => simp only [flattenVal, List.mem_singleton] at he; exact ⟨[], by rw [he]⟩
  | num n => simp only [flattenVal, List.mem_singleton] at he; exact ⟨[], by rw [he]⟩
  | str s => simp only [flattenVal, List.mem_singleton] at he; exact ⟨[], by rw [he]⟩
  | arr items => simp only [flattenVal, List.mem_singleton] at he; exact ⟨[], by rw [he]⟩

theorem flattenObj_head : ∀ (m : JObj) (e : List (List Char) × JVal),
    e ∈ flattenObj m → ∃ k p, e.1 = k :: p ∧ keyMem k m = true
  | .nil, e, he => by simp [flattenObj] at he
  | .cons k v tl, e, he => by
    rw [flattenObj, List.mem_append] at he
    rcases he with he | he
    · obtain ⟨p, hp⟩ := flattenVal_head k v e he
      exact ⟨k, p, hp, by simp [keyMem]⟩
    · obtain ⟨k', p, hp, hk⟩ := flattenObj_head tl e he
      exact ⟨k', p, hp, by simp [keyMem, hk]⟩

theorem flattenObj_path_ne_nil (m : JObj) (e : List (List Char) × JVal)
    (he : e ∈ flattenObj m) : e.1 ≠ [] := by
  obtain ⟨k, p, hp, _⟩ := flattenObj_head m e he
  simp [hp]

mutual

theorem flattenObj_ne_nil : ∀ (k : List Char) (v : JVal) (tl : JObj),
    noEmptySubObj (.cons k v tl) = true → flattenObj (.cons k v tl) ≠ []
  | k, v, tl, hne => by
    rw [noEmptySubObj, Bool.and_eq_true] at hne
    have := flattenVal_ne_nil k v hne.1
    rw [flattenObj]
    intro h
    exact this (List.append_eq_nil.mp h).1

theorem flattenVal_ne_nil : ∀ (k : List Char) (v : JVal),
    noEmptySubVal v = true → flattenVal k v ≠ []
  | k, .null, _ => by simp [flattenVal]
  | k, .bool b, _ => by simp [flattenVal]
  | k, .num n, _ => by simp [flattenVal]
  | k, .str s, _ => by simp [flattenVal]
  | k, .arr items, _ => by simp [flattenVal]
  | k, .obj .nil, hne => by simp [noEmptySubVal] at hne
  | k, .obj (.cons k2 v2 tl2), hne => by
    rw [noEmptySubVal] at hne
    have := flattenObj_ne_nil k2 v2 tl2 hne
    simp only [flattenVal, ne_eq, List.map_eq_nil_iff]
    exact this

end

theorem encodeVal_ok_leaf (pre k : List Char) (v : JVal)
    (head : List (List Char × List Char))
    (hfv : flattenVal k v = [([k], v)])
    (henc : encodeVal (pre ++ k) v =
      if 256 < (dumps v).length then .error (.valueLength (dumps v) (pre ++ k))
      else .ok [(pre ++ k, dumps v)])
    (h : encodeVal (pre ++ k) v = .ok head) :
    head = (flattenVal k v).map (fun e => (pre ++ joinDots e.1, dumps e.2)) ∧
    ∀ e ∈ flattenVal k v, ∀ seg ∈ e.1.tail, ¬ '.' ∈ seg := by
  rw [henc] at h
  by_cases hlen : 256 < (dumps v).length
  · rw [if_pos hlen] at h
    exact absurd h (by simp)
  · rw [if_neg hlen] at h
    refine ⟨?_, ?_⟩
    · rw [hfv]
      simpa [joinDots] using (Except.ok.injEq _ _ ▸ h :
        [(pre ++ k, dumps v)] = head).symm
    · intro e he seg hseg
      rw [hfv, List.mem_singleton] at he
      subst he
      simp at hseg

mutual

theorem encodeObj_ok : ∀ (pre : List Char) (m : JObj)
    (flat : List (List Char × List Char)), encodeObj pre m = .ok flat →
    flat = (flattenObj m).map (fun e => (pre ++ joinDots e.1, dumps e.2)) ∧
    ∀ e ∈ flattenObj m, ∀ seg ∈ e.1, ¬ '.' ∈ seg
  | pre, .nil, flat, h => by
    rw [encodeObj] at h
    refine ⟨?_, by simp [flattenObj]⟩
    have : ([] : List (List Char × List Char)) = flat := by
      simpa using h
    simp [flattenObj, ← this]
  | pre, .cons k v tl, flat, h => by
    rw [encodeObj] at h
    by_cases hdot : '.' ∈ k
    · rw [if_pos hdot] at h; exact absurd h (by simp)
    · rw [if_neg hdot] at h
      by_cases hlen : 256 < (pre ++ k).length
      · rw [if_pos hlen] at h; exact absurd h (by simp)
      · rw [if_neg hlen] at h
        match hv : encodeVal (pre ++ k) v with
        | .error e => rw [hv] at h; exact absurd h (by simp)
        | .ok head =>
          rw [hv] at h
          match ht : encodeObj pre tl with
          | .error e => rw [ht] at h; exact absurd h (by simp)
          | .ok rest =>
            rw [ht] at h
            have hflat : head ++ rest = flat := by simpa using h
            obtain ⟨hh1, hh2⟩ := encodeVal_ok pre k v head hv
            obtain ⟨ht1, ht2⟩ := encodeObj_ok pre tl rest ht
            refine ⟨?_, ?_⟩
            · rw [← hflat, hh1, ht1, flattenObj, List.map_append]
            · intro e he seg hseg
              rw [flattenObj, List.mem_append] at he
              rcases he with he | he
              · obtain ⟨p, hp⟩ := flattenVal_head k v e he
                rw [hp] at hseg
                rcases List.mem_cons.mp hseg with rfl | hseg'
                · exact hdot
                · have := hh2 e he seg
                  rw [hp] at this
                  exact this hseg'
              · exact ht2 e he seg hseg

theorem encodeVal_ok : ∀ (pre k : List Char) (v : JVal)
    (head : List (List Char × List Char)), encodeVal (pre ++ k) v = .ok head →
    head = (flattenVal k v).map (fun e => (pre ++ joinDots e.1, dumps e.2)) ∧
    ∀ e ∈ flattenVal k v, ∀ seg ∈ e.1.tail, ¬ '.' ∈ seg
  | pre, k, .null, head, h => encodeVal_ok_leaf pre k .null head rfl rfl h
  | pre, k, .bool b, head, h => encodeVal_ok_leaf pre k (.bool b) head rfl rfl h
  | pre, k, .num n, head, h => encodeVal_ok_leaf pre k (.num n) head rfl rfl h
  | pre, k, .str s, head, h => encodeVal_ok_leaf pre k (.str s) head rfl rfl h
  | pre, k, .arr items, head, h => encodeVal_ok_leaf pre k (.arr items) head rfl rfl h
  | pre, k, .obj sub, head, h => by
    rw [encodeVal] at h
    have hsub := encodeObj_ok (pre ++ k ++ ['.']) sub head h
    obtain ⟨h1, h2⟩ := hsub
    refine ⟨?_, ?_⟩
    · rw [h1, flattenVal, List.map_map]
      refine List.map_congr_left ?_
      intro e he
      obtain ⟨k', p, hp, _⟩ := flattenObj_head sub e he
      simp only [Function.comp_apply, hp, joinDots]
      cases p with
      | nil => simp [joinDots]
      | cons q qs => simp [joinDots]
    · intro e he seg hseg
      rw [flattenVal, List.mem_map] at he
      obtain ⟨a, ha, rfl⟩ := he
      simp only [List.tail_cons] at hseg
      exact h2 a ha seg hseg

end

theorem decodeEntries_image : ∀ (pairs : List (List (List Char) × JVal)),
    (∀ e ∈ pairs, e.1 ≠ [] ∧ ∀ seg ∈ e.1, ¬ '.' ∈ seg) →
    decodeEntries (pairs.map (fun e => (joinDots e.1, dumps e.2))) = .ok pairs
  | [], _ => rfl
  | (p, v) :: rest, hyp => by
    have h0 := hyp (p, v) (by simp)
    have ih := decodeEntries_image rest (fun e he => hyp e (List.mem_cons_of_mem _ he))
    simp only [List.map_cons, decodeEntries, jloads_dumps v, ih,
      splitDots_joinDots p h0.1 h0.2]



theorem entriesWeight_append (l1 l2 : List (List (List Char) × JVal)) :
    entriesWeight (l1 ++ l2) = entriesWeight l1 + entriesWeight l2 := by
  simp [entriesWeight]

theorem entriesWeight_cons (e : List (List Char) × JVal)
    (l : List (List (List Char) × JVal)) :
    entriesWeight (e :: l) = pathWeight e + entriesWeight l := by
  simp [entriesWeight]

theorem entriesWeight_prependMap (k : List Char)
    (l : List (List (List Char) × JVal)) :
    entriesWeight (l.map (fun e => (k :: e.1, e.2))) = entriesWeight l + l.length := by
  induction l with
  | nil => rfl
  | cons e es ih =>
    simp only [List.map_cons, entriesWeight_cons, ih, pathWeight, List.length_cons]
    omega

theorem headIs_prepend (k : List Char) (e : List (List Char) × JVal) :
    headIs k ((k :: e.1, e.2)) = true := by simp [headIs]

theorem headIs_flattenVal (k : List Char) (v : JVal) (e : List (List Char) × JVal)
    (he : e ∈ flattenVal k v) : headIs k e = true := by
  obtain ⟨p, hp⟩ := flattenVal_head k v e he
  simp [headIs, hp]

theorem headIs_flattenObj_not_mem (k : List Char) (m : JObj)
    (hk : keyMem k m = false) (e : List (List Char) × JVal)
    (he : e ∈ flattenObj m) : headIs k e = false := by
  obtain ⟨k', p, hp, hmem⟩ := flattenObj_head m e he
  simp only [headIs, hp]
  rw [decide_eq_false_iff_not]
  intro heq
  subst heq
  rw [hmem] at hk
  exact absurd hk (by simp)

theorem filter_headIs_parts (k : List Char) (B R : List (List (List Char) × JVal))
    (hB : ∀ e ∈ B, headIs k e = true) (hR : ∀ e ∈ R, headIs k e = false) :
    (B ++ R).filter (headIs k) = B ∧
    (B ++ R).filter (fun e => !headIs k e) = R := by
  constructor
  · rw [List.filter_append, List.filter_eq_self.mpr hB,
      List.filter_eq_nil_iff.mpr (fun a ha => by simp [hR a ha]), List.append_nil]
  · rw [List.filter_append, List.filter_eq_nil_iff.mpr (fun a ha => by simp [hB a ha]),
      List.filter_eq_self.mpr (fun a ha => by simp [hR a ha]), List.nil_append]

theorem flattenVal_eq_leaf (k : List Char) (v : JVal)
    (hv : ∀ e, v ≠ .obj e) : flattenVal k v = [([k], v)] := by
  cases v with
  | obj e => exact absurd rfl (hv e)
  | null => rw [flattenVal.eq_def]
  | bool b => rw [flattenVal.eq_def]
  | num n => rw [flattenVal.eq_def]
  | str s => rw [flattenVal.eq_def]
  | arr items => rw [flattenVal.eq_def]

theorem unflatten_flattenObj : ∀ (m : JObj) (fuel : Nat),
    noDupKeysObj m = true → noEmptySubObj m = true →
    entriesWeight (flattenObj m) < fuel →
    unflattenAux fuel (flattenObj m) = m
  | .nil, fuel, _, _, hw => by
    obtain ⟨f, rfl⟩ : ∃ f, fuel = f + 1 := ⟨fuel - 1, by omega⟩
    rw [show flattenObj .nil = [] from rfl]
    rfl
  | .cons k v tl, fuel, hnd, hne, hw => by
    obtain ⟨f, rfl⟩ : ∃ f, fuel = f + 1 := ⟨fuel - 1, by omega⟩
    rw [noDupKeysObj, Bool.and_eq_true, Bool.and_eq_true] at hnd
    obtain ⟨⟨hk, hdv⟩, hdt⟩ := hnd
    rw [Bool.not_eq_true'] at hk
    rw [noEmptySubObj, Bool.and_eq_true] at hne
    obtain ⟨hev, het⟩ := hne
    have hR := headIs_flattenObj_not_mem k tl hk
    cases v with
    | obj sub =>
      have hsubne : noEmptySubObj sub = true ∧ sub ≠ .nil := by
        cases sub with
        | nil => exact absurd hev (by simp [noEmptySubVal])
        | cons k2 v2 tl2 => exact ⟨hev, by simp⟩
      have hFSne : flattenObj sub ≠ [] := by
        cases sub with
        | nil => exact absurd rfl hsubne.2
        | cons k2 v2 tl2 => exact flattenObj_ne_nil k2 v2 tl2 hsubne.1
      obtain ⟨e1, fs', hFS⟩ := List.exists_cons_of_ne_nil hFSne
      obtain ⟨q, qs, hp1⟩ : ∃ q qs, e1.1 = q :: qs := by
        have := flattenObj_path_ne_nil sub e1 (by rw [hFS]; exact List.mem_cons_self _ _)
        cases hp : e1.1 with
        | nil => exact absurd hp this
        | cons q qs => exact ⟨q, qs, rfl⟩
      have hBdef : flattenVal k (.obj sub) =
          (k :: e1.1, e1.2) :: fs'.map (fun e => (k :: e.1, e.2)) := by
        rw [flattenVal, hFS, List.map_cons]
      have hB : ∀ e ∈ flattenVal k (.obj sub), headIs k e = true :=
        headIs_flattenVal k (.obj sub)
      have hsplit : flattenObj (.cons k (.obj sub) tl) =
          (k :: e1.1, e1.2) :: (fs'.map (fun e => (k :: e.1, e.2)) ++ flattenObj tl) := by
        rw [flattenObj, hBdef, List.cons_append]
      rw [hsplit, hp1]
      simp only [unflattenAux]
      have hparts := filter_headIs_parts k (flattenVal k (.obj sub)) (flattenObj tl)
        hB hR
      have hgroup : ((k :: q :: qs, e1.2) ::
          (fs'.map (fun e => (k :: e.1, e.2)) ++ flattenObj tl)).filter (headIs k) =
          flattenVal k (.obj sub) := by
        rw [show (k :: q :: qs, e1.2) ::
            (fs'.map (fun e => (k :: e.1, e.2)) ++ flattenObj tl) =
            flattenVal k (.obj sub) ++ flattenObj tl by
          rw [hBdef, hp1, List.cons_append]]
        exact hparts.1
      have hothers : ((fs'.map (fun e => (k :: e.1, e.2)) ++ flattenObj tl)).filter
          (fun e => !headIs k e) = flattenObj tl := by
        have := hparts.2
        rw [hBdef, hp1, List.cons_append] at this
        rw [List.filter_cons_of_neg (by simp [headIs])] at this
        exact this
      rw [hgroup, hothers]
      have htails : (flattenVal k (.obj sub)).map (fun e => (e.1.tail, e.2)) =
          flattenObj sub := by
        rw [flattenVal, List.map_map]
        have hfun : ((fun e : List (List Char) × JVal => (e.1.tail, e.2)) ∘
            fun e : List (List Char) × JVal => (k :: e.1, e.2)) = id := by
          funext e
          rfl
        rw [hfun, List.map_id]
      rw [htails]
      have hwB : entriesWeight (flattenVal k (.obj sub)) =
          entriesWeight (flattenObj sub) + (flattenObj sub).length := by
        rw [flattenVal]
        exact entriesWeight_prependMap k _
      have hwtotal := hw
      rw [flattenObj, entriesWeight_append, hwB] at hwtotal
      have hFSlen : 0 < (flattenObj sub).length := by
        rw [hFS]; simp
      rw [unflatten_flattenObj sub f (by simpa [noDupKeysVal] using hdv) hsubne.1
          (by omega),
        unflatten_flattenObj tl f hdt het (by omega)]
    | null =>
      rw [flattenObj, flattenVal_eq_leaf k _ (fun e h => JVal.noConfusion h),
        List.singleton_append]
      simp only [unflattenAux]
      have hwtl : entriesWeight (flattenObj tl) < f := by
        rw [flattenObj, entriesWeight_append,
          flattenVal_eq_leaf k _ (fun e h => JVal.noConfusion h)] at hw
        have h2 : entriesWeight [(([k], JVal.null) : List (List Char) × JVal)] = 2 := by
          simp [entriesWeight, pathWeight]
        omega
      rw [List.filter_eq_self.mpr (fun a ha => by simp [hR a ha]),
        unflatten_flattenObj tl f hdt het hwtl]
    | bool b =>
      rw [flattenObj, flattenVal_eq_leaf k _ (fun e h => JVal.noConfusion h),
        List.singleton_append]
      simp only [unflattenAux]
      have hwtl : entriesWeight (flattenObj tl) < f := by
        rw [flattenObj, entriesWeight_append,
          flattenVal_eq_leaf k _ (fun e h => JVal.noConfusion h)] at hw
        have h2 : entriesWeight [(([k], JVal.bool b) : List (List Char) × JVal)] = 2 := by
          simp [entriesWeight, pathWeight]
        omega
      rw [List.filter_eq_self.mpr (fun a ha => by simp [hR a ha]),
        unflatten_flattenObj tl f hdt het hwtl]
    | num n =>
      rw [flattenObj, flattenVal_eq_leaf k _ (fun e h => JVal.noConfusion h),
        List.singleton_append]
      simp only [unflattenAux]
      have hwtl : entriesWeight (flattenObj tl) < f := by
        rw [flattenObj, entriesWeight_append,
          flattenVal_eq_leaf k _ (fun e h => JVal.noConfusion h)] at hw
        have h2 : entriesWeight [(([k], JVal.num n) : List (List Char) × JVal)] = 2 := by
          simp [entriesWeight, pathWeight]
        omega
      rw [List.filter_eq_self.mpr (fun a ha => by simp [hR a ha]),
        unflatten_flattenObj tl f hdt het hwtl]
    | str s =>
      rw [flattenObj, flattenVal_eq_leaf k _ (fun e h => JVal.noConfusion h),
        List.singleton_append]
      simp only [unflattenAux]
      have hwtl : entriesWeight (flattenObj tl) < f := by
        rw [flattenObj, entriesWeight_append,
          flattenVal_eq_leaf k _ (fun e h => JVal.noConfusion h)] at hw
        have h2 : entriesWeight [(([k], JVal.str s) : List (List Char) × JVal)] = 2 := by
          simp [entriesWeight, pathWeight]
        omega
      rw [List.filter_eq_self.mpr (fun a ha => by simp [hR a ha]),
        unflatten_flattenObj tl f hdt het hwtl]
    | arr items =>
      rw [flattenObj, flattenVal_eq_leaf k _ (fun e h => JVal.noConfusion h),
        List.singleton_append]
      simp only [unflattenAux]
      have hwtl : entriesWeight (flattenObj tl) < f := by
        rw [flattenObj, entriesWeight_append,
          flattenVal_eq_leaf k _ (fun e h => JVal.noConfusion h)] at hw
        have h2 : entriesWeight [(([k], JVal.arr items) : List (List Char) × JVal)] = 2 := by
          simp [entriesWeight, pathWeight]
        omega
      rw [List.filter_eq_self.mpr (fun a ha => by simp [hR a ha]),
        unflatten_flattenObj tl f hdt het hwtl]
termination_by m _ => sizeOf m

/-- Round trip of the codec: decoding an encoded mapping (distinct keys,
no empty sub-mappings) reconstructs it exactly. -/
theorem decode_encode (x : JObj) (flat : List (List Char × List Char))
    (hnd : noDupKeysObj x = true) (hne : noEmptySubObj x = true)
    (henc : encode x = .ok flat) : decode flat = .ok x := by
  have hobj : encodeObj [] x = .ok flat := by
    rw [encode] at henc
    match hE : encodeObj [] x with
    | .error e => rw [hE] at henc; exact absurd henc (by simp)
    | .ok entries =>
      rw [hE] at henc
      dsimp only at henc
      by_cases hlen : 100 < entries.length
      · rw [if_pos hlen] at henc; exact absurd henc (by simp)
      · rw [if_neg hlen] at henc
        rw [show entries = flat by simpa using henc]
  obtain ⟨hflat, hfree⟩ := encodeObj_ok [] x flat hobj
  have hflat' : flat = (flattenObj x).map (fun e => (joinDots e.1, dumps e.2)) := by
    rw [hflat]
    exact List.map_congr_left (fun e _ => by simp)
  rw [decode, hflat',
    decodeEntries_image (flattenObj x)
      (fun e he => ⟨flattenObj_path_ne_nil x e he, hfree e he⟩)]
  dsimp only
  rw [unflatten_flattenObj x (entriesWeight (flattenObj x) + 1) hnd hne (by omega)]


/-! ## Characterisation of encoding errors -/

/-- Did the fallible computation succeed? -/
def exceptOk {ε α : Type} : Except ε α → Bool
  | .ok _ => true
  | .error _ => false

mutual

/-- Some mapping key segment (at a level reachable through mappings)
contains a literal dot. -/
def hasDotKeyObj : JObj → Bool
  | .nil => false
  | .cons k v tl => decide ('.' ∈ k) || hasDotKeyVal v || hasDotKeyObj tl

def hasDotKeyVal : JVal → Bool
  | .obj entries => hasDotKeyObj entries
  | _ => false

end

mutual

/-- Some accumulated dotted key visited by the encoding walk exceeds 256
characters. -/
def hasLongKeyObj (pre : List Char) : JObj → Bool
  | .nil => false
  | .cons k v tl =>
    decide (256 < (pre ++ k).length) || hasLongKeyVal (pre ++ k) v ||
      hasLongKeyObj pre tl

def hasLongKeyVal (fullKey : List Char) : JVal → Bool
  | .obj entries => hasLongKeyObj (fullKey ++ ['.']) entries
  | _ => false

end

mutual

/-- Some leaf's JSON-encoded value string exceeds 256 characters. -/
def hasLongValObj : JObj → Bool
  | .nil => false
  | .cons _ v tl => hasLongValVal v || hasLongValObj tl

def hasLongValVal : JVal → Bool
  | .obj entries => hasLongValObj entries
  | v => decide (256 < (dumps v).length)

end

mutual

theorem exceptOk_encodeObj : ∀ (pre : List Char) (m : JObj),
    exceptOk (encodeObj pre m) =
      (!hasDotKeyObj m && !hasLongKeyObj pre m && !hasLongValObj m)
  | pre, .nil => by
    rw [encodeObj, hasDotKeyObj, hasLongKeyObj, hasLongValObj]
    rfl
  | pre, .cons k v tl => by
    have ihv := exceptOk_encodeVal (pre ++ k) v
    have iht := exceptOk_encodeObj pre tl
    rw [encodeObj, hasDotKeyObj, hasLongKeyObj, hasLongValObj]
    by_cases hdot : '.' ∈ k
    · rw [if_pos hdot, show decide ('.' ∈ k) = true by simp [hdot]]
      rfl
    · have hd : decide ('.' ∈ k) = false := by simp [hdot]
      rw [if_neg hdot, hd]
      by_cases hlen : 256 < (pre ++ k).length
      · rw [if_pos hlen, show decide (256 < (pre ++ k).length) = true by simpa using hlen]
        cases hasDotKeyVal v <;> cases hasDotKeyObj tl <;>
          cases hasLongKeyVal (pre ++ k) v <;> cases hasLongKeyObj pre tl <;>
          cases hasLongValVal v <;> cases hasLongValObj tl <;> rfl
      · have hl : decide (256 < (pre ++ k).length) = false := by simpa using hlen
        rw [if_neg hlen, hl]
        have hsplit : exceptOk (match encodeVal (pre ++ k) v with
            | .error e => (.error e : Except HyperParameterEncodingError
                (List (List Char × List Char)))
            | .ok head =>
              match encodeObj pre tl with
              | .error e => .error e
              | .ok rest => .ok (head ++ rest)) =
            (exceptOk (encodeVal (pre ++ k) v) && exceptOk (encodeObj pre tl)) := by
          cases encodeVal (pre ++ k) v with
          | error e => rfl
          | ok head =>
            cases encodeObj pre tl with
            | error e => rfl
            | ok rest => rfl
        rw [hsplit, ihv, iht]
        cases hasDotKeyVal v <;> cases hasDotKeyObj tl <;>
          cases hasLongKeyVal (pre ++ k) v <;> cases hasLongKeyObj pre tl <;>
          cases hasLongValVal v <;> cases hasLongValObj tl <;> rfl

theorem exceptOk_encodeVal : ∀ (fullKey : List Char) (v : JVal),
    exceptOk (encodeVal fullKey v) =
      (!hasDotKeyVal v && !hasLongKeyVal fullKey v && !hasLongValVal v)
  | fullKey, .obj entries => by
    rw [encodeVal, hasDotKeyVal, hasLongKeyVal, hasLongValVal]
    exact exceptOk_encodeObj (fullKey ++ ['.']) entries
  | fullKey, .null => by
    rw [encodeVal.eq_def, hasDotKeyVal.eq_def, hasLongKeyVal.eq_def, hasLongValVal.eq_def]
    by_cases h : 256 < (dumps .null).length
    · simp [h, exceptOk]
    · simp [h, exceptOk]
  | fullKey, .bool b => by
    rw [encodeVal.eq_def, hasDotKeyVal.eq_def, hasLongKeyVal.eq_def, hasLongValVal.eq_def]
    by_cases h : 256 < (dumps (.bool b)).length
    · simp [h, exceptOk]
    · simp [h, exceptOk]
  | fullKey, .num n => by
    rw [encodeVal.eq_def, hasDotKeyVal.eq_def, hasLongKeyVal.eq_def, hasLongValVal.eq_def]
    by_cases h : 256 < (dumps (.num n)).length
    · simp [h, exceptOk]
    · simp [h, exceptOk]
  | fullKey, .str s => by
    rw [encodeVal.eq_def, hasDotKeyVal.eq_def, hasLongKeyVal.eq_def, hasLongValVal.eq_def]
    by_cases h : 256 < (dumps (.str s)).length
    · simp [h, exceptOk]
    · simp [h, exceptOk]
  | fullKey, .arr items => by
    rw [encodeVal.eq_def, hasDotKeyVal.eq_def, hasLongKeyVal.eq_def, hasLongValVal.eq_def]
    by_cases h : 256 < (dumps (.arr items)).length
    · simp [h, exceptOk]
    · simp [h, exceptOk]

end

theorem exceptOk_eq_false_iff {ε α : Type} (r : Except ε α) :
    exceptOk r = false ↔ ∃ e, r = .error e := by
  cases r with
  | error e => simp [exceptOk]
  | ok a => simp [exceptOk]

theorem exceptOk_encode (x : JObj) :
    exceptOk (encode x) =
      (!hasDotKeyObj x && !hasLongKeyObj [] x && !hasLongValObj x &&
        !decide (100 < (flattenObj x).length)) := by
  rw [encode]
  cases hE : encodeObj [] x with
  | error e =>
    have h := exceptOk_encodeObj [] x
    rw [hE] at h
    dsimp only
    rw [← h]
    rfl
  | ok entries =>
    have hok := exceptOk_encodeObj [] x
    rw [hE] at hok
    obtain ⟨hflat, _⟩ := encodeObj_ok [] x entries hE
    have hlen : entries.length = (flattenObj x).length := by rw [hflat]; simp
    dsimp only
    by_cases h100 : 100 < entries.length
    · rw [if_pos h100, ← hok]
      have : decide (100 < (flattenObj x).length) = true := by
        rw [← hlen]; simp [h100]
      rw [this]
      cases (!hasDotKeyObj x && !hasLongKeyObj [] x && !hasLongValObj x) <;> rfl
    · rw [if_neg h100, ← hok]
      have : decide (100 < (flattenObj x).length) = false := by
        rw [← hlen]; simp [h100]
      rw [this]
      cases (!hasDotKeyObj x && !hasLongKeyObj [] x && !hasLongValObj x) <;> rfl

/-- The encoding-error characterisation in `Prop` form: `encode` fails
exactly when a key segment contains a dot, a visited dotted key is longer
than 256 characters, a JSON-encoded leaf value is longer than 256
characters, or more than 100 flat entries result. -/
theorem encode_error_iff (x : JObj) :
    (∃ e, encode x = .error e) ↔
      (hasDotKeyObj x = true ∨ hasLongKeyObj [] x = true ∨ hasLongValObj x = true ∨
        100 < (flattenObj x).length) := by
  rw [← exceptOk_eq_false_iff, exceptOk_encode]
  simp only [Bool.and_eq_false_iff, Bool.not_eq_false', Bool.not_eq_true',
    decide_eq_true_eq]
  constructor
  · intro h
    rcases h with ((h | h) | h) | h
    · exact Or.inl h
    · exact Or.inr (Or.inl h)
    · exact Or.inr (Or.inr (Or.inl h))
    · exact Or.inr (Or.inr (Or.inr (by simpa using h)))
  · intro h
    rcases h with h | h | h | h
    · exact Or.inl (Or.inl (Or.inl h))
    · exact Or.inl (Or.inl (Or.inr h))
    · exact Or.inl (Or.inr h)
    · exact Or.inr (by simpa using h)

/-- A mapping with keys `"0"`, `"1"`, ..., one flat entry per key. -/
def sampleEntries : Nat → Nat → JObj
  | _, 0 => .nil
  | i, n + 1 => .cons (natChars i) (.num i) (sampleEntries (i + 1) n)


/-! ## Determinism of `encode` under mapping-entry permutation -/

/-- Two values that differ only in the order of entries of mappings
reached through mappings (leaf values, including lists, unchanged):
reflexivity, entry-wise congruence, adjacent-entry swap, and
transitivity, mirroring the construction of `List.Perm`. -/
inductive ValPerm : JVal → JVal → Prop where
  | refl (v : JVal) : ValPerm v v
  | objCons (k : List Char) {v w : JVal} {t1 t2 : JObj} :
      ValPerm v w → ValPerm (.obj t1) (.obj t2) →
      ValPerm (.obj (.cons k v t1)) (.obj (.cons k w t2))
  | objSwap (k1 k2 : List Char) (v1 v2 : JVal) (t : JObj) :
      ValPerm (.obj (.cons k1 v1 (.cons k2 v2 t)))
        (.obj (.cons k2 v2 (.cons k1 v1 t)))
  | trans {a b c : JVal} : ValPerm a b → ValPerm b c → ValPerm a c

/-- Mapping-level permutation: the restriction of `ValPerm` to mappings. -/
def ObjPerm (a b : JObj) : Prop := ValPerm (.obj a) (.obj b)

theorem valPerm_flattenVal {v w : JVal} (h : ValPerm v w) :
    ∀ k, List.Perm (flattenVal k v) (flattenVal k w) := by
  induction h with
  | refl v => exact fun _ => List.Perm.refl _
  | objCons k0 hv ht ihv iht =>
    intro k
    rw [flattenVal, flattenVal, flattenObj, flattenObj, List.map_append,
      List.map_append]
    refine List.Perm.append ((ihv k0).map _) ?_
    have := iht k
    rw [flattenVal, flattenVal] at this
    exact this
  | objSwap k1 k2 v1 v2 t =>
    intro k
    rw [flattenVal, flattenVal, flattenObj, flattenObj, flattenObj, flattenObj,
      List.map_append, List.map_append, List.map_append, List.map_append,
      ← List.append_assoc, ← List.append_assoc]
    exact (List.perm_append_comm).append_right _
  | trans h1 h2 ih1 ih2 => exact fun k => (ih1 k).trans (ih2 k)

theorem objPerm_flatten {a b : JObj} (h : ObjPerm a b) :
    List.Perm (flattenObj a) (flattenObj b) := by
  have hmap := valPerm_flattenVal h []
  rw [flattenVal, flattenVal] at hmap
  rw [List.perm_iff_count]
  intro e
  have hinj : Function.Injective
      (fun e : List (List Char) × JVal => (([] : List Char) :: e.1, e.2)) := by
    intro x y hxy
    obtain ⟨hx, hy⟩ := Prod.mk.injEq .. ▸ hxy
    exact Prod.ext (by injection hx) hy
  have := List.perm_iff_count.mp hmap
    ((fun e : List (List Char) × JVal => (([] : List Char) :: e.1, e.2)) e)
  rwa [List.count_map_of_injective _ _ hinj, List.count_map_of_injective _ _ hinj]
    at this

theorem flatLookup_perm : ∀ {l1 l2 : List (List Char × List Char)},
    l1.Perm l2 → (l1.map Prod.fst).Nodup →
    ∀ key, flatLookup key l1 = flatLookup key l2 := by
  intro l1 l2 h
  induction h with
  | nil => intro _ _; rfl
  | cons e _ ih =>
    intro hnd key
    obtain ⟨e1, e2⟩ := e
    rw [flatLookup, flatLookup]
    by_cases hk : key = e1
    · simp [hk]
    · rw [if_neg hk, if_neg hk]
      exact ih (by simpa using (List.nodup_cons.mp (by simpa using hnd)).2) key
  | swap e f l =>
    intro hnd key
    obtain ⟨e1, e2⟩ := e
    obtain ⟨f1, f2⟩ := f
    have hne : f1 ≠ e1 := by
      simp only [List.map_cons, List.nodup_cons, List.mem_cons] at hnd
      exact fun h => hnd.1 (Or.inl h)
    rw [flatLookup, flatLookup, flatLookup, flatLookup]
    by_cases h1 : key = f1
    · rw [if_pos h1, if_neg (fun h2 => hne (h1.symm.trans h2)), if_pos h1]
    · by_cases h2 : key = e1 <;> simp [h1, h2, Ne.symm hne]
  | trans h12 h23 ih12 ih23 =>
    intro hnd key
    rw [ih12 hnd key]
    exact ih23 (((h12.map Prod.fst).nodup_iff).mp hnd) key

theorem flattenObj_paths_nodup : ∀ m : JObj, noDupKeysObj m = true →
    ((flattenObj m).map Prod.fst).Nodup
  | .nil, _ => by simp [flattenObj]
  | .cons k v tl, hnd => by
    rw [noDupKeysObj, Bool.and_eq_true, Bool.and_eq_true] at hnd
    obtain ⟨⟨hk, hdv⟩, hdt⟩ := hnd
    rw [Bool.not_eq_true'] at hk
    rw [flattenObj, List.map_append]
    refine List.Nodup.append ?_ (flattenObj_paths_nodup tl hdt) ?_
    · cases v with
      | obj sub =>
        rw [flattenVal, List.map_map]
        have hcomp : (Prod.fst ∘ fun e : List (List Char) × JVal => (k :: e.1, e.2)) =
            (fun p => k :: p) ∘ Prod.fst := rfl
        rw [hcomp, ← List.map_map]
        refine List.Nodup.map ?_
          (flattenObj_paths_nodup sub (by simpa [noDupKeysVal] using hdv))
        intro a b hab
        simpa using hab
      | null => simp [flattenVal_eq_leaf k .null (by simp)]
      | bool b => simp [flattenVal_eq_leaf k (.bool b) (by simp)]
      | num n => simp [flattenVal_eq_leaf k (.num n) (by simp)]
      | str sc => simp [flattenVal_eq_leaf k (.str sc) (by simp)]
      | arr items => simp [flattenVal_eq_leaf k (.arr items) (by simp)]
    · intro p hp1 hp2
      rw [List.mem_map] at hp1 hp2
      obtain ⟨e1, he1, hpe1⟩ := hp1
      obtain ⟨e2, he2, hpe2⟩ := hp2
      obtain ⟨p1, hp1'⟩ := flattenVal_head k v e1 he1
      obtain ⟨k', p2, hp2', hk'⟩ := flattenObj_head tl e2 he2
      have hcons : k :: p1 = k' :: p2 := by rw [← hp1', ← hp2', hpe1, hpe2]
      injection hcons with hkk _
      rw [← hkk] at hk'
      rw [hk] at hk'
      exact absurd hk' (by simp)

theorem joinDots_inj_on (p1 p2 : List (List Char))
    (h1 : p1 ≠ [] ∧ ∀ seg ∈ p1, '.' ∉ seg)
    (h2 : p2 ≠ [] ∧ ∀ seg ∈ p2, '.' ∉ seg)
    (heq : joinDots p1 = joinDots p2) : p1 = p2 := by
  have h := splitDots_joinDots p1 h1.1 h1.2
  rw [heq, splitDots_joinDots p2 h2.1 h2.2] at h
  exact h.symm


theorem encode_ok_encodeObj (x : JObj) (flat : List (List Char × List Char))
    (h : encode x = .ok flat) : encodeObj [] x = .ok flat := by
  rw [encode] at h
  match hE : encodeObj [] x with
  | .error e => rw [hE] at h; exact absurd h (by simp)
  | .ok entries =>
    rw [hE] at h
    dsimp only at h
    by_cases hlen : 100 < entries.length
    · rw [if_pos hlen] at h; exact absurd h (by simp)
    · rw [if_neg hlen] at h
      rw [show entries = flat by simpa using h]

theorem encode_ok_flat (x : JObj) (flat : List (List Char × List Char))
    (h : encode x = .ok flat) :
    flat = (flattenObj x).map (fun e => (joinDots e.1, dumps e.2)) := by
  obtain ⟨hflat, _⟩ := encodeObj_ok [] x flat (encode_ok_encodeObj x flat h)
  rw [hflat]
  exact List.map_congr_left (fun e _ => by simp)

/-- Permutation determinism of `encode`: permuting mapping entries (at
levels reachable through mappings) of a well-formed mapping leaves the
flat key set and every looked-up value string unchanged. -/
theorem encode_perm_agree (x y : JObj) (fx fy : List (List Char × List Char))
    (hperm : ObjPerm x y) (hndx : noDupKeysObj x = true)
    (hx : encode x = .ok fx) (hy : encode y = .ok fy) :
    (fx.map Prod.fst).Perm (fy.map Prod.fst) ∧
    ∀ key, flatLookup key fx = flatLookup key fy := by
  have hfx := encode_ok_flat x fx hx
  have hfy := encode_ok_flat y fy hy
  obtain ⟨-, hfreex⟩ := encodeObj_ok [] x fx (encode_ok_encodeObj x fx hx)
  have hpermf : fx.Perm fy := by
    rw [hfx, hfy]
    exact (objPerm_flatten hperm).map _
  refine ⟨hpermf.map _, fun key => flatLookup_perm hpermf ?_ key⟩
  rw [hfx, List.map_map]
  have hcomp : (Prod.fst ∘ fun e : List (List Char) × JVal =>
      (joinDots e.1, dumps e.2)) = joinDots ∘ Prod.fst := rfl
  rw [hcomp, ← List.map_map]
  refine List.Nodup.map_on ?_ (flattenObj_paths_nodup x hndx)
  intro p1 hp1 p2 hp2 heq
  rw [List.mem_map] at hp1 hp2
  obtain ⟨e1, he1, rfl⟩ := hp1
  obtain ⟨e2, he2, rfl⟩ := hp2
  exact joinDots_inj_on e1.1 e2.1
    ⟨flattenObj_path_ne_nil x e1 he1, hfreex e1 he1⟩
    ⟨flattenObj_path_ne_nil x e2 he2, hfreex e2 he2⟩ heq

/-! Python `==` on JSON values (order-insensitive on dicts), with fuel. -/

/-- Number of entries of a mapping. -/
def objLen : JObj → Nat
  | .nil => 0
  | .cons _ _ tl => objLen tl + 1

/-- Python dict lookup. -/
def objLookup (k : List Char) : JObj → Option JVal
  | .nil => none
  | .cons k2 v tl => if k = k2 then some v else objLookup k tl

mutual

/-- Python `==` on JSON values: dicts compare order-insensitively by key
lookup, lists pointwise, scalars by equality.  Fuel-based so that it
evaluates; any fuel at least the nesting depth is enough. -/
def pyEqV : Nat → JVal → JVal → Bool
  | 0, _, _ => false
  | _ + 1, .null, .null => true
  | _ + 1, .bool a, .bool b => a == b
  | _ + 1, .num a, .num b => a == b
  | _ + 1, .str a, .str b => a == b
  | fuel + 1, .arr a, .arr b => pyEqA fuel a b
  | fuel + 1, .obj a, .obj b => decide (objLen a = objLen b) && pyEqEntries fuel a b
  | _ + 1, _, _ => false

/-- Pointwise Python `==` on lists. -/
def pyEqA : Nat → JArr → JArr → Bool
  | 0, _, _ => false
  | _ + 1, .nil, .nil => true
  | fuel + 1, .cons v t, .cons w u => pyEqV fuel v w && pyEqA fuel t u
  | _ + 1, _, _ => false

/-- Every entry of the first dict is present in the second with a
Python-equal value. -/
def pyEqEntries : Nat → JObj → JObj → Bool
  | 0, _, _ => false
  | _ + 1, .nil, _ => true
  | fuel + 1, .cons k v tl, b =>
    (match objLookup k b with
     | some w => pyEqV fuel v w
     | none => false) && pyEqEntries fuel tl b

end

/-- `\x7b"a": [\x7b"x": 1, "y": 2\x7d]\x7d`: a mapping whose value is a list
containing a mapping. -/
def listDictA : JObj :=
  .cons (chars "a")
    (.arr (.cons (.obj (.cons (chars "x") (.num 1)
      (.cons (chars "y") (.num 2) .nil))) .nil)) .nil

/-- The same logical mapping with the inner dict's keys in the other
order. -/
def listDictB : JObj :=
  .cons (chars "a")
    (.arr (.cons (.obj (.cons (chars "y") (.num 2)
      (.cons (chars "x") (.num 1) .nil))) .nil)) .nil

/-! ## Resource naming (`ml2p/cli_utils.py`)

`VALIDATION_REGEXES` maps each resource kind to an anchored regular
expression.  The regexes are embedded as executable suffix-directed
parsers: in every successful regex match the version components are
forced to be the maximal digit runs at the end of the name (each is
preceded by a literal `-`), so parsing from the end reproduces the regex
match groups exactly.  Declarative grammar predicates are stated
separately and proved equivalent to the parsers. -/

/-- The character class `[a-zA-Z0-9\-]` of the `model` group. -/
def modelChar (c : Char) : Bool := c.isAlphanum || c = '-'

/-- A valid `<model>` group: one or more characters of `[a-zA-Z0-9\-]`. -/
def matchModelPart (cs : List Char) : Bool :=
  !cs.isEmpty && cs.all modelChar

/-- Split `p ++ '-' :: d` where `d` is the maximal non-empty digit run at
the end of the input, as the regex fragment `-([0-9]+)$` does. -/
def chopDigits (cs : List Char) : Option (List Char × List Char) :=
  let rev := cs.reverse
  let ds := rev.takeWhile Char.isDigit
  if ds.isEmpty then none
  else
    match rev.dropWhile Char.isDigit with
    | '-' :: restRev => some (restRev.reverse, ds.reverse)
    | _ => none

/-- Remove the given suffix if the input ends with it. -/
def stripSuffix? (suf cs : List Char) : Option (List Char) :=
  if suf.isSuffixOf cs then some (cs.take (cs.length - suf.length)) else none

/-- Match `<model>-<major>-<minor>` (regex groups model, major, minor). -/
def parseVersioned2 (cs : List Char) : Option (List Char × List Char × List Char) :=
  match chopDigits cs with
  | none => none
  | some (p1, mnr) =>
    match chopDigits p1 with
    | none => none
    | some (m, maj) => if matchModelPart m then some (m, maj, mnr) else none

/-- Match `<model>-<major>-<minor>-<patch>`. -/
def parseVersioned3 (cs : List Char) :
    Option (List Char × List Char × List Char × List Char) :=
  match chopDigits cs with
  | none => none
  | some (p1, p) =>
    (parseVersioned2 p1).map (fun r => (r.1, r.2.1, r.2.2, p))

/-- The `training-job` regex: `<model>-<major>-<minor>(-dev)?`. -/
def parseTrainingJob (cs : List Char) :
    Option ((List Char × List Char × List Char) × Bool) :=
  match stripSuffix? (chars "-dev") cs with
  | some base => (parseVersioned2 base).map (fun r => (r, true))
  | none => (parseVersioned2 cs).map (fun r => (r, false))

/-- The `model` regex: `<model>-<major>-<minor>-<patch>(-dev)?`. -/
def parseModel (cs : List Char) :
    Option ((List Char × List Char × List Char × List Char) × Bool) :=
  match stripSuffix? (chars "-dev") cs with
  | some base => (parseVersioned3 base).map (fun r => (r, true))
  | none => (parseVersioned3 cs).map (fun r => (r, false))

/-- An endpoint stage suffix: `live`, `analysis` or `test`. -/
inductive Stage : Type where
  | live : Stage
  | analysis : Stage
  | test : Stage
deriving DecidableEq

/-- The characters a stage suffix appends to an endpoint name. -/
def stageChars : Option Stage → List Char
  | none => []
  | some .live => chars "-live"
  | some .analysis => chars "-analysis"
  | some .test => chars "-test"

/-- The endpoint regex with no stage suffix present. -/
def parseEndpointNoStage (cs : List Char) :
    Option ((List Char × List Char × List Char × List Char) × Bool × Option Stage) :=
  (parseModel cs).map (fun r => (r.1, r.2, none))

/-- The `endpoint` regex:
`<model>-<major>-<minor>-<patch>(-dev)?(-(live|analysis|test))?`. -/
def parseEndpoint (cs : List Char) :
    Option ((List Char × List Char × List Char × List Char) × Bool × Option Stage) :=
  match stripSuffix? (chars "-live") cs with
  | some base => (parseModel base).map (fun r => (r.1, r.2, some .live))
  | none =>
    match stripSuffix? (chars "-analysis") cs with
    | some base => (parseModel base).map (fun r => (r.1, r.2, some .analysis))
    | none =>
      match stripSuffix? (chars "-test") cs with
      | some base => (parseModel base).map (fun r => (r.1, r.2, some .test))
      | none => (parseEndpointNoStage cs)

/-- The `dataset` regex: `<model>-<YYYYMMDD>` (exactly eight digits). -/
def parseDataset (cs : List Char) : Option (List Char × List Char) :=
  let rev := cs.reverse
  let ds := rev.take 8
  if decide (ds.length = 8) && ds.all Char.isDigit then
    match rev.drop 8 with
    | '-' :: mrev =>
      if matchModelPart mrev.reverse then some (mrev.reverse, ds.reverse) else none
    | _ => none
  else none

/-- The four SageMaker resource kinds validated by `validate_name`. -/
inductive ResourceKind : Type where
  | dataset : ResourceKind
  | trainingJob : ResourceKind
  | model : ResourceKind
  | endpoint : ResourceKind
deriving DecidableEq

/-- `ml2p.errors.NamingError`, carrying its message. -/
inductive NamingError : Type where
  | mk (message : List Char) : NamingError
deriving DecidableEq

/-- The kind-specific messages of `validate_name`'s `message_dict`. -/
def validationMessage : ResourceKind → List Char
  | .dataset => chars "Dataset names should be in the format <model-name>-YYYYMMDD"
  | .trainingJob =>
    chars "Training job names should be in the format <model-name>-X-Y-Z-[dev]"
  | .model => chars "Model names should be in the format <model-name>-X-Y-Z-[dev]"
  | .endpoint =>
    chars "Endpoint names should be in the format <model-name>-X-Y-Z-[dev]-[live|analysis|test]"

/-- The body of `VALIDATION_REGEXES[resource]` matched against the whole
target string (the branch of `$` that stops at the end of the string; no
body matches a string containing a newline, every character class and
literal excluding it). -/
def coreMatches (resource : ResourceKind) (name : List Char) : Bool :=
  match resource with
  | .dataset => (parseDataset name).isSome
  | .trainingJob => (parseTrainingJob name).isSome
  | .model => (parseModel name).isSome
  | .endpoint => (parseEndpoint name).isSome

/-- CPython `re.match` with a pattern anchored by `$`: the match may stop
at the end of the string, or just before a newline that ends the string.
The pattern bodies at hand match no string containing a newline, so the
two alternatives never both succeed and the order of the attempts does
not matter. -/
def reMatch {α : Type} (parse : List Char → Option α) (cs : List Char) :
    Option α :=
  match parse cs with
  | some r => some r
  | none => if cs.getLast? = some '\n' then parse cs.dropLast else none

/-- Does the name match the kind's regex (`re.match` of
`VALIDATION_REGEXES[resource]` succeeding), including CPython's
`$`-before-a-trailing-newline match? -/
def nameMatches (resource : ResourceKind) (name : List Char) : Bool :=
  coreMatches resource name ||
    (decide (name.getLast? = some '\n') && coreMatches resource name.dropLast)

/-- `validate_name`: succeed when the name matches the kind's regex,
otherwise raise `NamingError` with the kind-specific message. -/
def validate_name (name : List Char) (resource : ResourceKind) :
    Except NamingError Unit :=
  if nameMatches resource name then .ok ()
  else .error (.mk (validationMessage resource))

/-- A lower-case hexadecimal digit, as CPython prints `\xhh` escapes. -/
def hexDigit (n : Nat) : Char :=
  if n < 10 then Char.ofNat (48 + n) else Char.ofNat (87 + n)

/-- One character of Python `repr` of a string, given the chosen quote:
the quote and the backslash are escaped with a backslash; tab, newline and
carriage return print as `\t`, `\n`, `\r`; other control characters (and
DEL) as `\xhh`; every other character stands as itself (CPython keeps
printable characters, and escapes non-printable non-ASCII ones; the
resource names at hand are ASCII, where this model is exact). -/
def pyReprChar (quote : Char) (c : Char) : List Char :=
  if c = quote ∨ c = '\\' then ['\\', c]
  else if c = Char.ofNat 9 then ['\\', 't']
  else if c = Char.ofNat 10 then ['\\', 'n']
  else if c = Char.ofNat 13 then ['\\', 'r']
  else if c.toNat < 32 ∨ c.toNat = 127 then
    ['\\', 'x', hexDigit (c.toNat / 16), hexDigit (c.toNat % 16)]
  else [c]

/-- The escaped body of Python `repr` of a string. -/
def pyReprBody (quote : Char) : List Char → List Char
  | [] => []
  | c :: rest => pyReprChar quote c ++ pyReprBody quote rest

/-- Python `repr` of a string, as `"\x7b!r\x7d".format` renders it: single
quotes (character 39), unless the string contains a single quote and no
double quote (character 34), in which case double quotes. -/
def pyRepr (s : List Char) : List Char :=
  let quote := if Char.ofNat 39 ∈ s ∧ ¬ Char.ofNat 34 ∈ s then Char.ofNat 34
    else Char.ofNat 39
  quote :: pyReprBody quote s ++ [quote]

/-- `training_job_name_for_model`: `re.match` against the `model` regex
and return `"\x7bmodel\x7d-\x7bmajor\x7d-\x7bminor\x7d"`; on no match,
raise `NamingError` with the `\x7b!r\x7d`-formatted name in the message. -/
def training_job_name_for_model (model_name : List Char) :
    Except NamingError (List Char) :=
  match reMatch parseModel model_name with
  | none => .error (.mk (chars "Invalid model name " ++ pyRepr model_name))
  | some ((m, maj, mnr, _), _) => .ok (m ++ '-' :: maj ++ '-' :: mnr)

/-- `model_name_for_endpoint`: `re.match` against the `endpoint` regex and
return `"\x7bmodel\x7d-\x7bmajor\x7d-\x7bminor\x7d-\x7bpatch\x7d\x7bmodel_suffix\x7d"`
(the stage suffix stripped, the dev marker preserved); on no match, raise
`NamingError` with the `\x7b!r\x7d`-formatted name in the message. -/
def model_name_for_endpoint (endpoint_name : List Char) :
    Except NamingError (List Char) :=
  match reMatch parseEndpoint endpoint_name with
  | none => .error (.mk (chars "Invalid endpoint name " ++ pyRepr endpoint_name))
  | some ((m, maj, mnr, p), dev, _) =>
    .ok (m ++ '-' :: maj ++ '-' :: mnr ++ '-' :: p ++
      (if dev then chars "-dev" else []))

/-! Declarative grammars for the four kinds. -/

/-- `<model>`: non-empty, characters in `[a-zA-Z0-9\-]`. -/
def ModelPartOk (m : List Char) : Prop := m ≠ [] ∧ ∀ c ∈ m, modelChar c = true

/-- A version component: a non-empty digit run. -/
def DigitsOk (d : List Char) : Prop := d ≠ [] ∧ ∀ c ∈ d, c.isDigit = true

/-- The `dataset` grammar `<model>-<YYYYMMDD>`. -/
def DatasetName (cs : List Char) : Prop :=
  ∃ m d, cs = m ++ '-' :: d ∧ ModelPartOk m ∧ d.length = 8 ∧ ∀ c ∈ d, c.isDigit = true

/-- Decomposition of a name by the `training-job` grammar. -/
def TrainingJobDecomp (cs m maj mnr : List Char) (dev : Bool) : Prop :=
  cs = m ++ '-' :: maj ++ '-' :: mnr ++ (if dev then chars "-dev" else []) ∧
    ModelPartOk m ∧ DigitsOk maj ∧ DigitsOk mnr

/-- The `training-job` grammar `<model>-<major>-<minor>[-dev]`. -/
def TrainingJobName (cs : List Char) : Prop :=
  ∃ m maj mnr dev, TrainingJobDecomp cs m maj mnr dev

/-- Decomposition of a name by the `model` grammar. -/
def ModelDecomp (cs m maj mnr p : List Char) (dev : Bool) : Prop :=
  cs = m ++ '-' :: maj ++ '-' :: mnr ++ '-' :: p ++
      (if dev then chars "-dev" else []) ∧
    ModelPartOk m ∧ DigitsOk maj ∧ DigitsOk mnr ∧ DigitsOk p

/-- The `model` grammar `<model>-<major>-<minor>-<patch>[-dev]`. -/
def ModelName (cs : List Char) : Prop :=
  ∃ m maj mnr p dev, ModelDecomp cs m maj mnr p dev

/-- Decomposition of a name by the `endpoint` grammar. -/
def EndpointDecomp (cs m maj mnr p : List Char) (dev : Bool)
    (stage : Option Stage) : Prop :=
  cs = m ++ '-' :: maj ++ '-' :: mnr ++ '-' :: p ++
      (if dev then chars "-dev" else []) ++ stageChars stage ∧
    ModelPartOk m ∧ DigitsOk maj ∧ DigitsOk mnr ∧ DigitsOk p

/-- The `endpoint` grammar
`<model>-<major>-<minor>-<patch>[-dev][-live|-analysis|-test]`. -/
def EndpointName (cs : List Char) : Prop :=
  ∃ m maj mnr p dev stage, EndpointDecomp cs m maj mnr p dev stage

/-- The declarative grammar for each resource kind. -/
def NameGrammar : ResourceKind → List Char → Prop
  | .dataset => DatasetName
  | .trainingJob => TrainingJobName
  | .model => ModelName
  | .endpoint => EndpointName

/-- The kind's grammar as CPython `re.match` applies the anchored regex:
the name itself is a grammar word, or the name is a grammar word followed
by exactly one trailing newline (the `$`-before-a-trailing-newline
match). -/
def PyNameGrammar (kind : ResourceKind) (cs : List Char) : Prop :=
  NameGrammar kind cs ∨ ∃ core, cs = core ++ [Char.ofNat 10] ∧ NameGrammar kind core

/-! Low-level lemmas about the suffix-directed parsing helpers. -/

theorem matchModelPart_iff (m : List Char) : matchModelPart m = true ↔ ModelPartOk m := by
  simp [matchModelPart, ModelPartOk, List.isEmpty_iff, List.all_eq_true]

theorem chopDigits_complete (p d : List Char) (hd : DigitsOk d) :
    chopDigits (p ++ '-' :: d) = some (p, d) := by
  obtain ⟨hne, hdig⟩ := hd
  have hrev : (p ++ '-' :: d).reverse = d.reverse ++ '-' :: p.reverse := by
    simp
  have hdigrev : ∀ c ∈ d.reverse, c.isDigit = true := by
    intro c hc
    exact hdig c (List.mem_reverse.mp hc)
  have htake : (d.reverse ++ '-' :: p.reverse).takeWhile Char.isDigit = d.reverse := by
    rw [takeWhile_append_all hdigrev]
    simp [List.takeWhile_cons]
  have hdrop : (d.reverse ++ '-' :: p.reverse).dropWhile Char.isDigit =
      '-' :: p.reverse := by
    rw [dropWhile_append_all hdigrev]
    simp [List.dropWhile_cons]
  rw [chopDigits]
  simp only [hrev, htake, hdrop]
  rw [if_neg (by simp [List.isEmpty_iff, hne])]
  simp

theorem chopDigits_sound {cs p d : List Char} (h : chopDigits cs = some (p, d)) :
    cs = p ++ '-' :: d ∧ DigitsOk d := by
  rw [chopDigits] at h
  split at h
  · exact absurd h (by simp)
  · rename_i hempty
    split at h
    · rename_i restRev hdrop
      simp only [Option.some.injEq, Prod.mk.injEq] at h
      obtain ⟨hp, hd⟩ := h
      have hsplit := List.takeWhile_append_dropWhile (p := Char.isDigit)
        (l := cs.reverse)
      rw [hdrop] at hsplit
      have hcs : cs = (cs.reverse.takeWhile Char.isDigit ++ '-' :: restRev).reverse := by
        rw [hsplit, List.reverse_reverse]
      refine ⟨?_, ?_, ?_⟩
      · rw [hcs]
        simp [← hp, ← hd]
      · intro hdnil
        rw [← hd, List.reverse_eq_nil_iff] at hdnil
        rw [hdnil] at hempty
        exact hempty rfl
      · intro a ha
        rw [← hd, List.mem_reverse] at ha
        exact List.mem_takeWhile_imp ha
    · exact absurd h (by simp)

theorem stripSuffix?_some {suf cs base : List Char}
    (h : stripSuffix? suf cs = some base) : cs = base ++ suf := by
  rw [stripSuffix?] at h
  by_cases hsuf : suf.isSuffixOf cs
  · rw [if_pos hsuf] at h
    obtain ⟨t, ht⟩ := List.isSuffixOf_iff_suffix.mp hsuf
    have hbase : base = cs.take (cs.length - suf.length) := by
      simpa using h.symm
    rw [← ht, hbase, ← ht]
    simp
  · rw [if_neg hsuf] at h
    exact absurd h (by simp)

theorem stripSuffix?_complete (suf base : List Char) :
    stripSuffix? suf (base ++ suf) = some base := by
  rw [stripSuffix?,
    if_pos (List.isSuffixOf_iff_suffix.mpr (List.suffix_append base suf))]
  simp

theorem stripSuffix?_eq_none {suf cs : List Char}
    (h : ∀ base, cs ≠ base ++ suf) : stripSuffix? suf cs = none := by
  rw [stripSuffix?, if_neg]
  intro hsuf
  obtain ⟨t, ht⟩ := List.isSuffixOf_iff_suffix.mp hsuf
  exact h t ht.symm

theorem getLast?_append_right {l₁ l₂ : List Char} (h : l₂ ≠ []) :
    (l₁ ++ l₂).getLast? = l₂.getLast? := by
  rw [List.getLast?_append]
  cases hl : l₂.getLast? with
  | none =>
    have := List.getLast?_isSome.mpr h
    rw [hl] at this
    exact absurd this (by simp)
  | some a => rfl

theorem ne_append_suffix_of_getLast? {cs base suf : List Char} {a c : Char}
    (ha : cs.getLast? = some a) (hc : suf.getLast? = some c) (hne : a ≠ c) :
    cs ≠ base ++ suf := by
  intro heq
  have hsufne : suf ≠ [] := by
    intro h0
    rw [h0] at hc
    exact Option.noConfusion hc
  rw [heq, getLast?_append_right hsufne, hc] at ha
  injection ha with hca
  exact hne hca.symm

theorem getLast?_digits (x d : List Char) (hd : DigitsOk d) :
    ∃ a, (x ++ d).getLast? = some a ∧ a.isDigit = true := by
  obtain ⟨hne, hdig⟩ := hd
  rw [getLast?_append_right hne]
  obtain ⟨a, ha⟩ := Option.isSome_iff_exists.mp (List.getLast?_isSome.mpr hne)
  exact ⟨a, ha, hdig a (List.mem_of_getLast?_eq_some ha)⟩

/-! Soundness and completeness of the suffix-directed parsers with
respect to the declarative grammars. -/

theorem parseVersioned2_complete (m maj mnr : List Char)
    (hm : ModelPartOk m) (hmaj : DigitsOk maj) (hmnr : DigitsOk mnr) :
    parseVersioned2 (m ++ '-' :: maj ++ '-' :: mnr) = some (m, maj, mnr) := by
  have h1 : chopDigits ((m ++ '-' :: maj) ++ '-' :: mnr) = some (m ++ '-' :: maj, mnr) :=
    chopDigits_complete _ _ hmnr
  rw [parseVersioned2, show m ++ '-' :: maj ++ '-' :: mnr =
    (m ++ '-' :: maj) ++ '-' :: mnr by simp, h1]
  dsimp only
  rw [chopDigits_complete m maj hmaj]
  dsimp only
  rw [if_pos ((matchModelPart_iff m).mpr hm)]

theorem parseVersioned2_sound {cs m maj mnr : List Char}
    (h : parseVersioned2 cs = some (m, maj, mnr)) :
    cs = m ++ '-' :: maj ++ '-' :: mnr ∧ ModelPartOk m ∧ DigitsOk maj ∧ DigitsOk mnr := by
  rw [parseVersioned2] at h
  split at h
  · exact absurd h (by simp)
  · rename_i p1 mnr' hchop1
    split at h
    · exact absurd h (by simp)
    · rename_i m' maj' hchop2
      split at h
      · rename_i hmp
        simp only [Option.some.injEq, Prod.mk.injEq] at h
        obtain ⟨rfl, rfl, rfl⟩ := h
        obtain ⟨hcs, hd1⟩ := chopDigits_sound hchop1
        obtain ⟨hp1, hd2⟩ := chopDigits_sound hchop2
        rw [hp1] at hcs
        exact ⟨by simpa using hcs, (matchModelPart_iff _).mp hmp, hd2, hd1⟩
      · exact absurd h (by simp)

theorem parseVersioned3_complete (m maj mnr p : List Char)
    (hm : ModelPartOk m) (hmaj : DigitsOk maj) (hmnr : DigitsOk mnr)
    (hp : DigitsOk p) :
    parseVersioned3 (m ++ '-' :: maj ++ '-' :: mnr ++ '-' :: p) =
      some (m, maj, mnr, p) := by
  have h1 : chopDigits ((m ++ '-' :: maj ++ '-' :: mnr) ++ '-' :: p) =
      some (m ++ '-' :: maj ++ '-' :: mnr, p) := chopDigits_complete _ _ hp
  rw [parseVersioned3, show m ++ '-' :: maj ++ '-' :: mnr ++ '-' :: p =
    (m ++ '-' :: maj ++ '-' :: mnr) ++ '-' :: p by simp, h1]
  dsimp only
  rw [parseVersioned2_complete m maj mnr hm hmaj hmnr]
  rfl

theorem parseVersioned3_sound {cs m maj mnr p : List Char}
    (h : parseVersioned3 cs = some (m, maj, mnr, p)) :
    cs = m ++ '-' :: maj ++ '-' :: mnr ++ '-' :: p ∧
      ModelPartOk m ∧ DigitsOk maj ∧ DigitsOk mnr ∧ DigitsOk p := by
  rw [parseVersioned3] at h
  split at h
  · exact absurd h (by simp)
  · rename_i p1 p' hchop
    simp only [Option.map_eq_some'] at h
    obtain ⟨⟨m', maj', mnr'⟩, hv2, heq⟩ := h
    simp only [Prod.mk.injEq] at heq
    obtain ⟨rfl, rfl, rfl, rfl⟩ := heq
    obtain ⟨hcs, hdp⟩ := chopDigits_sound hchop
    obtain ⟨hp1, hm, hmaj, hmnr⟩ := parseVersioned2_sound hv2
    rw [hp1] at hcs
    exact ⟨by simpa using hcs, hm, hmaj, hmnr, hdp⟩

theorem parseTrainingJob_complete {cs m maj mnr : List Char} {dev : Bool}
    (h : TrainingJobDecomp cs m maj mnr dev) :
    parseTrainingJob cs = some ((m, maj, mnr), dev) := by
  obtain ⟨hcs, hm, hmaj, hmnr⟩ := h
  cases dev with
  | true =>
    rw [if_pos rfl] at hcs
    have hcs' : cs = (m ++ '-' :: maj ++ '-' :: mnr) ++ chars "-dev" := by
      rw [hcs]
    rw [parseTrainingJob, hcs', stripSuffix?_complete]
    dsimp only
    rw [parseVersioned2_complete m maj mnr hm hmaj hmnr]
    rfl
  | false =>
    rw [if_neg (by simp), List.append_nil] at hcs
    have hnodev : ∀ base, cs ≠ base ++ chars "-dev" := by
      intro base
      obtain ⟨a, ha, hadig⟩ := getLast?_digits (m ++ '-' :: maj ++ ['-']) mnr hmnr
      rw [show (m ++ '-' :: maj ++ ['-']) ++ mnr = m ++ '-' :: maj ++ '-' :: mnr by
        simp, ← hcs] at ha
      exact ne_append_suffix_of_getLast? ha rfl
        (fun heq => by rw [heq] at hadig; exact absurd hadig (by decide))
    rw [parseTrainingJob, stripSuffix?_eq_none hnodev]
    dsimp only
    rw [hcs, parseVersioned2_complete m maj mnr hm hmaj hmnr]
    rfl

theorem parseTrainingJob_sound {cs m maj mnr : List Char} {dev : Bool}
    (h : parseTrainingJob cs = some ((m, maj, mnr), dev)) :
    TrainingJobDecomp cs m maj mnr dev := by
  rw [parseTrainingJob] at h
  split at h
  · rename_i base hstrip
    simp only [Option.map_eq_some'] at h
    obtain ⟨⟨m', maj', mnr'⟩, hv2, heq⟩ := h
    simp only [Prod.mk.injEq] at heq
    obtain ⟨⟨rfl, rfl, rfl⟩, rfl⟩ := heq
    obtain ⟨hbase, hm, hmaj, hmnr⟩ := parseVersioned2_sound hv2
    have := stripSuffix?_some hstrip
    rw [hbase] at this
    exact ⟨by rw [this, if_pos rfl], hm, hmaj, hmnr⟩
  · simp only [Option.map_eq_some'] at h
    obtain ⟨⟨m', maj', mnr'⟩, hv2, heq⟩ := h
    simp only [Prod.mk.injEq] at heq
    obtain ⟨⟨rfl, rfl, rfl⟩, rfl⟩ := heq
    obtain ⟨hcs, hm, hmaj, hmnr⟩ := parseVersioned2_sound hv2
    exact ⟨by rw [if_neg (by simp)]; simpa using hcs, hm, hmaj, hmnr⟩

theorem parseModel_complete {cs m maj mnr p : List Char} {dev : Bool}
    (h : ModelDecomp cs m maj mnr p dev) :
    parseModel cs = some ((m, maj, mnr, p), dev) := by
  obtain ⟨hcs, hm, hmaj, hmnr, hp⟩ := h
  cases dev with
  | true =>
    rw [if_pos rfl] at hcs
    have hcs' : cs = (m ++ '-' :: maj ++ '-' :: mnr ++ '-' :: p) ++ chars "-dev" := by
      rw [hcs]
    rw [parseModel, hcs', stripSuffix?_complete]
    dsimp only
    rw [parseVersioned3_complete m maj mnr p hm hmaj hmnr hp]
    rfl
  | false =>
    rw [if_neg (by simp), List.append_nil] at hcs
    have hnodev : ∀ base, cs ≠ base ++ chars "-dev" := by
      intro base
      obtain ⟨a, ha, hadig⟩ := getLast?_digits (m ++ '-' :: maj ++ '-' :: mnr ++ ['-'])
        p hp
      rw [show (m ++ '-' :: maj ++ '-' :: mnr ++ ['-']) ++ p =
        m ++ '-' :: maj ++ '-' :: mnr ++ '-' :: p by simp, ← hcs] at ha
      exact ne_append_suffix_of_getLast? ha rfl
        (fun heq => by rw [heq] at hadig; exact absurd hadig (by decide))
    rw [parseModel, stripSuffix?_eq_none hnodev]
    dsimp only
    rw [hcs, parseVersioned3_complete m maj mnr p hm hmaj hmnr hp]
    rfl

theorem parseModel_sound {cs m maj mnr p : List Char} {dev : Bool}
    (h : parseModel cs = some ((m, maj, mnr, p), dev)) :
    ModelDecomp cs m maj mnr p dev := by
  rw [parseModel] at h
  split at h
  · rename_i base hstrip
    simp only [Option.map_eq_some'] at h
    obtain ⟨⟨m', maj', mnr', p'⟩, hv3, heq⟩ := h
    simp only [Prod.mk.injEq] at heq
    obtain ⟨⟨rfl, rfl, rfl, rfl⟩, rfl⟩ := heq
    obtain ⟨hbase, hm, hmaj, hmnr, hp⟩ := parseVersioned3_sound hv3
    have := stripSuffix?_some hstrip
    rw [hbase] at this
    exact ⟨by rw [this, if_pos rfl], hm, hmaj, hmnr, hp⟩
  · simp only [Option.map_eq_some'] at h
    obtain ⟨⟨m', maj', mnr', p'⟩, hv3, heq⟩ := h
    simp only [Prod.mk.injEq] at heq
    obtain ⟨⟨rfl, rfl, rfl, rfl⟩, rfl⟩ := heq
    obtain ⟨hcs, hm, hmaj, hmnr, hp⟩ := parseVersioned3_sound hv3
    exact ⟨by rw [if_neg (by simp)]; simpa using hcs, hm, hmaj, hmnr, hp⟩

theorem modelShape_getLast? (m maj mnr p : List Char) (dev : Bool) (hp : DigitsOk p) :
    ∃ a, (m ++ '-' :: maj ++ '-' :: mnr ++ '-' :: p ++
      (if dev then chars "-dev" else [])).getLast? = some a ∧
      (a.isDigit = true ∨ a = 'v') := by
  cases dev with
  | false =>
    rw [if_neg (by simp), List.append_nil]
    obtain ⟨a, ha, hd⟩ := getLast?_digits (m ++ '-' :: maj ++ '-' :: mnr ++ ['-']) p hp
    refine ⟨a, ?_, Or.inl hd⟩
    rw [show (m ++ '-' :: maj ++ '-' :: mnr ++ ['-']) ++ p =
      m ++ '-' :: maj ++ '-' :: mnr ++ '-' :: p by simp] at ha
    exact ha
  | true =>
    rw [if_pos rfl, getLast?_append_right (by simp [chars])]
    exact ⟨'v', rfl, Or.inr rfl⟩

theorem notDigit_ne_of_last {cs base suf : List Char} {a c : Char}
    (ha : cs.getLast? = some a) (hav : a.isDigit = true ∨ a = 'v')
    (hc : suf.getLast? = some c) (hcd : c.isDigit = false) (hcv : c ≠ 'v') :
    cs ≠ base ++ suf := by
  refine ne_append_suffix_of_getLast? ha hc ?_
  intro heq
  rcases hav with h | h
  · rw [heq] at h
    rw [h] at hcd
    exact Bool.noConfusion hcd
  · exact hcv (heq ▸ h)

theorem parseEndpoint_complete {cs m maj mnr p : List Char} {dev : Bool}
    {stage : Option Stage} (h : EndpointDecomp cs m maj mnr p dev stage) :
    parseEndpoint cs = some ((m, maj, mnr, p), dev, stage) := by
  obtain ⟨hcs, hm, hmaj, hmnr, hp⟩ := h
  have hpm : parseModel (m ++ '-' :: maj ++ '-' :: mnr ++ '-' :: p ++
      (if dev then chars "-dev" else [])) = some ((m, maj, mnr, p), dev) :=
    parseModel_complete ⟨rfl, hm, hmaj, hmnr, hp⟩
  obtain ⟨a, hlast, hav⟩ := modelShape_getLast? m maj mnr p dev hp
  match stage with
  | none =>
    rw [show stageChars none = [] from rfl, List.append_nil] at hcs
    subst hcs
    rw [parseEndpoint,
      stripSuffix?_eq_none (fun base =>
        notDigit_ne_of_last hlast hav
          (show (chars "-live").getLast? = some 'e' by decide) (by decide) (by decide)),
      stripSuffix?_eq_none (fun base =>
        notDigit_ne_of_last hlast hav
          (show (chars "-analysis").getLast? = some 's' by decide) (by decide)
          (by decide)),
      stripSuffix?_eq_none (fun base =>
        notDigit_ne_of_last hlast hav
          (show (chars "-test").getLast? = some 't' by decide) (by decide) (by decide)),
      parseEndpointNoStage]
    rw [hpm]
    rfl
  | some .live =>
    rw [show stageChars (some .live) = chars "-live" from rfl] at hcs
    subst hcs
    rw [parseEndpoint, stripSuffix?_complete]
    dsimp only
    rw [hpm]
    rfl
  | some .analysis =>
    rw [show stageChars (some .analysis) = chars "-analysis" from rfl] at hcs
    subst hcs
    have hlast' : ((m ++ '-' :: maj ++ '-' :: mnr ++ '-' :: p ++
        (if dev then chars "-dev" else [])) ++ chars "-analysis").getLast? =
        some 's' := by
      rw [getLast?_append_right (by simp [chars])]
      rfl
    rw [parseEndpoint,
      stripSuffix?_eq_none (fun base =>
        ne_append_suffix_of_getLast? hlast'
          (show (chars "-live").getLast? = some 'e' by decide) (by decide)),
      stripSuffix?_complete]
    dsimp only
    rw [hpm]
    rfl
  | some .test =>
    rw [show stageChars (some .test) = chars "-test" from rfl] at hcs
    subst hcs
    have hlast' : ((m ++ '-' :: maj ++ '-' :: mnr ++ '-' :: p ++
        (if dev then chars "-dev" else [])) ++ chars "-test").getLast? =
        some 't' := by
      rw [getLast?_append_right (by simp [chars])]
      rfl
    rw [parseEndpoint,
      stripSuffix?_eq_none (fun base =>
        ne_append_suffix_of_getLast? hlast'
          (show (chars "-live").getLast? = some 'e' by decide) (by decide)),
      stripSuffix?_eq_none (fun base =>
        ne_append_suffix_of_getLast? hlast'
          (show (chars "-analysis").getLast? = some 's' by decide) (by decide)),
      stripSuffix?_complete]
    dsimp only
    rw [hpm]
    rfl

theorem parseEndpoint_sound {cs : List Char}
    {m maj mnr p : List Char} {dev : Bool} {stage : Option Stage}
    (h : parseEndpoint cs = some ((m, maj, mnr, p), dev, stage)) :
    EndpointDecomp cs m maj mnr p dev stage := by
  rw [parseEndpoint] at h
  split at h
  · rename_i base hstrip
    simp only [Option.map_eq_some'] at h
    obtain ⟨⟨⟨m', maj', mnr', p'⟩, dev'⟩, hpm, heq⟩ := h
    simp only [Prod.mk.injEq] at heq
    obtain ⟨⟨rfl, rfl, rfl, rfl⟩, rfl, rfl⟩ := heq
    obtain ⟨hbase, hm, hmaj, hmnr, hp⟩ := parseModel_sound hpm
    have := stripSuffix?_some hstrip
    rw [hbase] at this
    exact ⟨by rw [this]; rfl, hm, hmaj, hmnr, hp⟩
  · split at h
    · rename_i base hstrip
      simp only [Option.map_eq_some'] at h
      obtain ⟨⟨⟨m', maj', mnr', p'⟩, dev'⟩, hpm, heq⟩ := h
      simp only [Prod.mk.injEq] at heq
      obtain ⟨⟨rfl, rfl, rfl, rfl⟩, rfl, rfl⟩ := heq
      obtain ⟨hbase, hm, hmaj, hmnr, hp⟩ := parseModel_sound hpm
      have := stripSuffix?_some hstrip
      rw [hbase] at this
      exact ⟨by rw [this]; rfl, hm, hmaj, hmnr, hp⟩
    · split at h
      · rename_i base hstrip
        simp only [Option.map_eq_some'] at h
        obtain ⟨⟨⟨m', maj', mnr', p'⟩, dev'⟩, hpm, heq⟩ := h
        simp only [Prod.mk.injEq] at heq
        obtain ⟨⟨rfl, rfl, rfl, rfl⟩, rfl, rfl⟩ := heq
        obtain ⟨hbase, hm, hmaj, hmnr, hp⟩ := parseModel_sound hpm
        have := stripSuffix?_some hstrip
        rw [hbase] at this
        exact ⟨by rw [this]; rfl, hm, hmaj, hmnr, hp⟩
      · rw [parseEndpointNoStage] at h
        simp only [Option.map_eq_some'] at h
        obtain ⟨⟨⟨m', maj', mnr', p'⟩, dev'⟩, hpm, heq⟩ := h
        simp only [Prod.mk.injEq] at heq
        obtain ⟨⟨rfl, rfl, rfl, rfl⟩, rfl, rfl⟩ := heq
        obtain ⟨hcs, hm, hmaj, hmnr, hp⟩ := parseModel_sound hpm
        exact ⟨by rw [hcs, show stageChars none = [] from rfl, List.append_nil],
          hm, hmaj, hmnr, hp⟩

theorem parseDataset_complete {m d : List Char} (hm : ModelPartOk m)
    (hlen : d.length = 8) (hdig : ∀ c ∈ d, c.isDigit = true) :
    parseDataset (m ++ '-' :: d) = some (m, d) := by
  have hrev : (m ++ '-' :: d).reverse = d.reverse ++ '-' :: m.reverse := by simp
  have hlenrev : d.reverse.length = 8 := by simpa using hlen
  have htake : (d.reverse ++ '-' :: m.reverse).take 8 = d.reverse := by
    rw [List.take_append_of_le_length (by omega), List.take_of_length_le (by omega)]
  have hdrop : (d.reverse ++ '-' :: m.reverse).drop 8 = '-' :: m.reverse := by
    rw [List.drop_append_of_le_length (by omega), List.drop_of_length_le (by omega)]
    rfl
  rw [parseDataset]
  simp only [hrev, htake, hdrop]
  rw [if_pos (by
    simp only [Bool.and_eq_true, decide_eq_true_eq, List.all_eq_true]
    exact ⟨hlenrev, fun c hc => hdig c (List.mem_reverse.mp hc)⟩)]
  rw [List.reverse_reverse, List.reverse_reverse,
    if_pos ((matchModelPart_iff m).mpr hm)]

theorem parseDataset_sound {cs m d : List Char}
    (h : parseDataset cs = some (m, d)) :
    cs = m ++ '-' :: d ∧ ModelPartOk m ∧ d.length = 8 ∧ ∀ c ∈ d, c.isDigit = true := by
  rw [parseDataset] at h
  split at h
  · rename_i hguard
    simp only [Bool.and_eq_true, decide_eq_true_eq, List.all_eq_true] at hguard
    obtain ⟨hlen8, hdig⟩ := hguard
    split at h
    · rename_i mrev hdrop
      split at h
      · rename_i hmp
        simp only [Option.some.injEq, Prod.mk.injEq] at h
        obtain ⟨rfl, rfl⟩ := h
        have hsplit : cs.reverse = cs.reverse.take 8 ++ cs.reverse.drop 8 :=
          (List.take_append_drop 8 cs.reverse).symm
        rw [hdrop] at hsplit
        have hcs : cs = (cs.reverse.take 8 ++ '-' :: mrev).reverse := by
          rw [← hsplit, List.reverse_reverse]
        refine ⟨?_, (matchModelPart_iff _).mp hmp, by simpa using hlen8, ?_⟩
        · rw [hcs]
          simp
          have htt : List.take 8 (List.take 8 cs.reverse ++ '-' :: mrev) =
              List.take 8 cs.reverse := by
            rw [List.take_append_of_le_length (by omega)]
            exact List.take_of_length_le (by omega)
          rw [htt]
        · intro c hc
          rw [List.mem_reverse] at hc
          exact hdig c hc
      · exact absurd h (by simp)
    · exact absurd h (by simp)
  · exact absurd h (by simp)

theorem coreMatches_iff (kind : ResourceKind) (name : List Char) :
    coreMatches kind name = true ↔ NameGrammar kind name := by
  cases kind with
  | dataset =>
    rw [coreMatches, Option.isSome_iff_exists]
    constructor
    · rintro ⟨⟨m, d⟩, hparse⟩
      obtain ⟨hcs, hm, hlen, hdig⟩ := parseDataset_sound hparse
      exact ⟨m, d, hcs, hm, hlen, hdig⟩
    · rintro ⟨m, d, rfl, hm, hlen, hdig⟩
      exact ⟨(m, d), parseDataset_complete hm hlen hdig⟩
  | trainingJob =>
    rw [coreMatches, Option.isSome_iff_exists]
    constructor
    · rintro ⟨⟨⟨m, maj, mnr⟩, dev⟩, hparse⟩
      exact ⟨m, maj, mnr, dev, parseTrainingJob_sound hparse⟩
    · rintro ⟨m, maj, mnr, dev, hdec⟩
      exact ⟨((m, maj, mnr), dev), parseTrainingJob_complete hdec⟩
  | model =>
    rw [coreMatches, Option.isSome_iff_exists]
    constructor
    · rintro ⟨⟨⟨m, maj, mnr, p⟩, dev⟩, hparse⟩
      exact ⟨m, maj, mnr, p, dev, parseModel_sound hparse⟩
    · rintro ⟨m, maj, mnr, p, dev, hdec⟩
      exact ⟨((m, maj, mnr, p), dev), parseModel_complete hdec⟩
  | endpoint =>
    rw [coreMatches, Option.isSome_iff_exists]
    constructor
    · rintro ⟨⟨⟨m, maj, mnr, p⟩, dev, stage⟩, hparse⟩
      exact ⟨m, maj, mnr, p, dev, stage, parseEndpoint_sound hparse⟩
    · rintro ⟨m, maj, mnr, p, dev, stage, hdec⟩
      exact ⟨((m, maj, mnr, p), dev, stage), parseEndpoint_complete hdec⟩

/-! Lemmas about CPython's `$`-before-trailing-newline match. -/

theorem eq_dropLast_append_of_getLast? {cs : List Char} {c : Char}
    (h : cs.getLast? = some c) : cs = cs.dropLast ++ [c] := by
  have hne : cs ≠ [] := by
    intro he
    rw [he] at h
    exact Option.noConfusion h
  rw [List.getLast?_eq_getLast cs hne] at h
  injection h with h2
  rw [← h2]
  exact (List.dropLast_append_getLast hne).symm

/-- `nameMatches` decides exactly the grammar as `re.match` applies it. -/
theorem nameMatches_iff (kind : ResourceKind) (name : List Char) :
    nameMatches kind name = true ↔ PyNameGrammar kind name := by
  rw [nameMatches, PyNameGrammar, Bool.or_eq_true, Bool.and_eq_true,
    decide_eq_true_eq, coreMatches_iff, coreMatches_iff]
  constructor
  · rintro (h | ⟨hl, h⟩)
    · exact Or.inl h
    · exact Or.inr ⟨name.dropLast, eq_dropLast_append_of_getLast? hl, h⟩
  · rintro (h | ⟨core, rfl, h⟩)
    · exact Or.inl h
    · refine Or.inr ⟨?_, ?_⟩
      · rw [getLast?_append_right (by simp)]
        rfl
      · rw [show (core ++ [Char.ofNat 10]).dropLast = core by simp]
        exact h

theorem reMatch_of_parse {α : Type} {parse : List Char → Option α}
    {cs : List Char} {r : α} (h : parse cs = some r) :
    reMatch parse cs = some r := by
  rw [reMatch, h]

theorem reMatch_nl {α : Type} {parse : List Char → Option α} {core : List Char}
    {r : α} (hno : parse (core ++ ['\n']) = none) (h : parse core = some r) :
    reMatch parse (core ++ ['\n']) = some r := by
  rw [reMatch, hno]
  dsimp only
  rw [if_pos (by rw [getLast?_append_right (by simp)]; rfl),
    show (core ++ ['\n']).dropLast = core by simp]
  exact h

theorem reMatch_some {α : Type} {parse : List Char → Option α} {cs : List Char}
    {r : α} (h : reMatch parse cs = some r) : ∃ cs2, parse cs2 = some r := by
  rw [reMatch] at h
  split at h
  · rename_i r2 heq
    injection h with h2
    subst h2
    exact ⟨cs, heq⟩
  · split at h
    · exact ⟨cs.dropLast, h⟩
    · exact absurd h (by simp)

/-- No successful `model`-regex parse ends in a newline: the body's last
character is a digit or the `v` of `-dev`. -/
theorem parseModel_no_newline {cs : List Char} (h : cs.getLast? = some '\n') :
    parseModel cs = none := by
  cases hp : parseModel cs with
  | none => rfl
  | some r =>
    obtain ⟨⟨m, maj, mnr, p⟩, dev⟩ := r
    obtain ⟨hcs, hm, hmaj, hmnr, hpd⟩ := parseModel_sound hp
    obtain ⟨a, hlast, hav⟩ := modelShape_getLast? m maj mnr p dev hpd
    rw [hcs, hlast] at h
    injection h with h2
    subst h2
    rcases hav with h3 | h3
    · exact absurd h3 (by decide)
    · exact absurd h3 (by decide)

/-- The last character of an endpoint-shaped name: never a newline. -/
theorem endpointShape_getLast? (m maj mnr p : List Char) (dev : Bool)
    (stage : Option Stage) (hp : DigitsOk p) :
    ∃ a, (m ++ '-' :: maj ++ '-' :: mnr ++ '-' :: p ++
      (if dev then chars "-dev" else []) ++ stageChars stage).getLast? = some a ∧
      a ≠ '\n' := by
  match stage with
  | none =>
    rw [show stageChars none = [] from rfl, List.append_nil]
    obtain ⟨a, hlast, hav⟩ := modelShape_getLast? m maj mnr p dev hp
    refine ⟨a, hlast, ?_⟩
    rcases hav with h | h
    · intro he
      rw [he] at h
      exact absurd h (by decide)
    · intro he
      rw [he] at h
      exact absurd h (by decide)
  | some st =>
    cases st with
    | live =>
      rw [getLast?_append_right (by decide)]
      exact ⟨'e', by decide, by decide⟩
    | analysis =>
      rw [getLast?_append_right (by decide)]
      exact ⟨'s', by decide, by decide⟩
    | test =>
      rw [getLast?_append_right (by decide)]
      exact ⟨'t', by decide, by decide⟩

/-- No successful `endpoint`-regex parse ends in a newline. -/
theorem parseEndpoint_no_newline {cs : List Char} (h : cs.getLast? = some '\n') :
    parseEndpoint cs = none := by
  cases hp : parseEndpoint cs with
  | none => rfl
  | some r =>
    obtain ⟨⟨m, maj, mnr, p⟩, dev, stage⟩ := r
    obtain ⟨hcs, hm, hmaj, hmnr, hpd⟩ := parseEndpoint_sound hp
    obtain ⟨a, hlast, hav⟩ := endpointShape_getLast? m maj mnr p dev stage hpd
    rw [hcs, hlast] at h
    injection h with h2
    exact absurd h2 hav

/-! ## SageMaker environment resolution (`ml2p/core.py`)

`SageMakerEnv.__init__` builds an environment dictionary from either the
training hyperparameters (when the `TRAINING_JOB_NAME` marker is present
in the process environment) or from process environment variables.  The
process environment is modelled as a partial map from variable names to
values; the hyperparameters file as an optional flat JSON object. -/

/-- `SageMakerEnvType`. -/
inductive SageMakerEnvType : Type where
  | train : SageMakerEnvType
  | serve : SageMakerEnvType
  | local : SageMakerEnvType
deriving DecidableEq

/-- The environment dictionary built by `_train_environ`,
`_serve_environ` or `_local_environ` and stored on `SageMakerEnv`. -/
structure EnvironDict : Type where
  env_type : SageMakerEnvType
  training_job_name : Option (List Char)
  model_version : Option (List Char)
  record_invokes : Option Bool
  project : Option JVal
  model_cls : Option JVal
  s3_url : Option JVal
deriving DecidableEq

/-- `SageMakerEnv._serve_environ`: every field read directly from the
process environment; a missing variable yields `None` (never an empty
string), and `record_invokes` is the comparison of the variable's value
(defaulting to `"false"`) with the literal `"true"`. -/
def serve_environ (osenv : List Char → Option (List Char)) : EnvironDict :=
  { env_type := .serve
    training_job_name := none
    model_version := osenv (chars "ML2P_MODEL_VERSION")
    record_invokes :=
      some (decide ((osenv (chars "ML2P_RECORD_INVOKES")).getD (chars "false") =
        chars "true"))
    project := (osenv (chars "ML2P_PROJECT")).map .str
    model_cls := (osenv (chars "ML2P_MODEL_CLS")).map .str
    s3_url := (osenv (chars "ML2P_S3_URL")).map .str }

/-- `SageMakerEnv.hyperparameters`: absent file means an empty mapping,
otherwise the JSON blob is decoded with the hyperparameter codec. -/
def hyperparametersOf (hpFile : Option (List (List Char × List Char))) :
    Except HyperParameterDecodingError JObj :=
  match hpFile with
  | none => .ok .nil
  | some blob => decode blob

/-- An error on the training construction path: the hyperparameters blob
failed to decode, or the reserved `ML2P_ENV` entry is not a mapping. -/
inductive TrainEnvError : Type where
  | decodeError (e : HyperParameterDecodingError) : TrainEnvError
  | envNotAMapping (v : JVal) : TrainEnvError
deriving DecidableEq

/-- The dictionary built by `_train_environ` from the decoded `ML2P_ENV`
sub-mapping and the external training-job marker. -/
def train_environ_of (environ : JObj) (marker : Option (List Char)) : EnvironDict :=
  { env_type := .train
    training_job_name := marker
    model_version := none
    record_invokes := none
    project := objLookup (chars "ML2P_PROJECT") environ
    model_cls := objLookup (chars "ML2P_MODEL_CLS") environ
    s3_url := objLookup (chars "ML2P_S3_URL") environ }

/-- `SageMakerEnv._train_environ`: decode the hyperparameters (an absent
file is an empty mapping), extract the reserved `ML2P_ENV` sub-mapping
(defaulting to empty), and fill the dictionary from it; the training job
name comes from the external marker. -/
def train_environ (hpFile : Option (List (List Char × List Char)))
    (marker : Option (List Char)) : Except TrainEnvError EnvironDict :=
  match hyperparametersOf hpFile with
  | .error e => .error (.decodeError e)
  | .ok hps =>
    match objLookup (chars "ML2P_ENV") hps with
    | none => .ok (train_environ_of .nil marker)
    | some (.obj environ) => .ok (train_environ_of environ marker)
    | some v => .error (.envNotAMapping v)

/-- `SageMakerEnv.__init__` with `environ=None`: the training path is
taken exactly when the `TRAINING_JOB_NAME` marker is present in the
process environment, otherwise the serving path. -/
def resolve_environ (osenv : List Char → Option (List Char))
    (hpFile : Option (List (List Char × List Char))) :
    Except TrainEnvError EnvironDict :=
  if (osenv (chars "TRAINING_JOB_NAME")).isSome then
    train_environ hpFile (osenv (chars "TRAINING_JOB_NAME"))
  else .ok (serve_environ osenv)

/-- `ml2p.errors.LocalEnvError`, carrying its message. -/
inductive LocalEnvError : Type where
  | mk (message : List Char) : LocalEnvError
deriving DecidableEq

/-- `LocalEnv._local_environ`: fixed `"local"` model version, recording
always off, project and S3 URL from the configuration file. -/
def local_environ (project : List Char) (s3url : List Char) : EnvironDict :=
  { env_type := .local
    training_job_name := none
    model_version := some (chars "local")
    record_invokes := some false
    project := some (.str project)
    model_cls := none
    s3_url := some (.str s3url) }

/-- `LocalEnv.__init__`: construction fails with `LocalEnvError` when the
designated working folder does not exist on disk. -/
def mkLocalEnv (ml_folder_is_dir : Bool) (ml_folder : List Char)
    (project s3url : List Char) : Except LocalEnvError EnvironDict :=
  if ml_folder_is_dir then .ok (local_environ project s3url)
  else .error (.mk (chars "Local environment folder " ++ ml_folder ++
    chars " does not exist."))

/-- `LocalEnv.download_dataset`, up to the external S3 transfer (an
out-of-scope storage-collaborator effect): the operation fails with
`LocalEnvError` when no boto session was supplied. -/
def download_dataset {σ : Type} (session : Option σ) (dataset : List Char) :
    Except LocalEnvError Unit :=
  match session with
  | none => .error (.mk (chars "Downloading datasets requires a boto session."))
  | some _ => .ok ()

/-- `LocalEnv.download_model`, up to the external S3 transfer: the
operation fails with `LocalEnvError` when no boto session was supplied. -/
def download_model {σ : Type} (session : Option σ) (training_job : List Char) :
    Except LocalEnvError Unit :=
  match session with
  | none => .error (.mk (chars "Downloading models requires a boto session."))
  | some _ => .ok ()

/-! ## Invocation recording (`ModelPredictor`, `ml2p/core.py`) -/

/-- `ml2p.core.S3URL` after its constructor: the bucket (`netloc`) and
the slash-stripped key prefix. -/
structure S3URL : Type where
  netloc : List Char
  s3root : List Char
deriving DecidableEq

/-- Python `str.strip("/")`. -/
def stripSlashes (l : List Char) : List Char :=
  ((l.dropWhile (· = '/')).reverse.dropWhile (· = '/')).reverse

/-- The `S3URL` constructor on an already-split URL: the path component
is stripped of slashes on both ends. -/
def mkS3URL (netloc rawpath : List Char) : S3URL :=
  { netloc := netloc, s3root := stripSlashes rawpath }

/-- `S3URL.path`: the stored root, a slash, and the suffix with leading
slashes removed; leading slashes of the result removed (handles an empty
root). -/
def S3URL.path (u : S3URL) (suffix : List Char) : List Char :=
  (u.s3root ++ '/' :: suffix.dropWhile (· = '/')).dropWhile (· = '/')

/-- The parts of `SageMakerEnv` that `ModelPredictor` reads when
recording an invocation. -/
structure PredictorEnv : Type where
  s3 : S3URL
  model_version : List Char
  record_invokes : Bool
deriving DecidableEq

/-- One `put_object` call issued to the S3 client. -/
structure S3Put : Type where
  bucket : List Char
  key : List Char
  body : List Char
deriving DecidableEq

/-- `ModelPredictor.record_invoke_id` with the clock and uuid generator
made explicit: the *ordered* identifier dictionary. -/
def record_invoke_id (ts uuid : List Char) : List (List Char × List Char) :=
  [(chars "ts", ts), (chars "uuid", uuid)]

/-- Python `"--".join`. -/
def joinDoubleDash : List (List Char) → List Char
  | [] => []
  | [x] => x
  | x :: y :: rest => x ++ chars "--" ++ joinDoubleDash (y :: rest)

/-- The record filename: identifier pairs joined as `key-value` with
`--` between pairs, plus `.json`. -/
def recordFilename (pairs : List (List Char × List Char)) : List Char :=
  joinDoubleDash (pairs.map (fun kv => kv.1 ++ '-' :: kv.2)) ++ chars ".json"

/-- `ModelPredictor.record_invoke` with the generated identifier made
explicit: the single `put_object` call it issues. -/
def record_invoke (env : PredictorEnv) (ts uuid : List Char)
    (datum prediction : JVal) : S3Put :=
  { bucket := env.s3.netloc
    key := env.s3.path (chars "/predictions/" ++ env.model_version ++
      '/' :: recordFilename (record_invoke_id ts uuid))
    body := dumps (.obj (.cons (chars "input") datum
      (.cons (chars "result") prediction .nil))) }

/-- `ModelPredictor.invoke`: the prediction dictionary and the storage
writes performed (one when recording is on, none otherwise). -/
def invoke (env : PredictorEnv) (ts uuid : List Char) (meta : JVal)
    (result : JVal → JVal) (data : JVal) : JVal × List S3Put :=
  let prediction := JVal.obj (.cons (chars "metadata") meta
    (.cons (chars "result") (result data) .nil))
  (prediction,
    if env.record_invokes then [record_invoke env ts uuid data prediction] else [])

/-- The recording loop of `batch_invoke`, `for datum, prediction in
zip(data, predictions): self.record_invoke(datum, prediction)`, with the
clock and uuid streams indexed by loop position (each iteration draws a
fresh timestamp and a fresh uuid). -/
def recordAll (env : PredictorEnv) (tss uuids : Nat → List Char) :
    Nat → List (JVal × JVal) → List S3Put
  | _, [] => []
  | i, (d, p) :: rest =>
    record_invoke env (tss i) (uuids i) d p :: recordAll env tss uuids (i + 1) rest

/-- `ModelPredictor.batch_invoke` with the per-record clock and uuid
generators explicit: metadata is computed once and shared; one
independent write per input when recording is on. -/
def batch_invoke (env : PredictorEnv) (tss uuids : Nat → List Char)
    (meta : JVal) (result : JVal → JVal) (data : List JVal) :
    List JVal × List S3Put :=
  let predictions := data.map (fun d => JVal.obj (.cons (chars "metadata") meta
    (.cons (chars "result") (result d) .nil)))
  (predictions,
    if env.record_invokes then recordAll env tss uuids 0 (data.zip predictions)
    else [])


/-! ## Supporting lemmas for the invocation recorder -/

theorem chars_ts_dash (l : List Char) : chars "ts" ++ '-' :: l = chars "ts-" ++ l := rfl

theorem chars_dd_uuid (l : List Char) :
    chars "--" ++ (chars "uuid-" ++ l) = chars "--uuid-" ++ l := rfl

/-- The filename produced for an invocation identifier: `ts-<ts>--uuid-<uuid>.json`. -/
theorem recordFilename_id (ts uuid : List Char) :
    recordFilename (record_invoke_id ts uuid) =
      chars "ts-" ++ ts ++ chars "--uuid-" ++ uuid ++ chars ".json" := by
  show ((chars "ts-" ++ ts ++ chars "--") ++ (chars "uuid-" ++ uuid)) ++ chars ".json" =
    chars "ts-" ++ ts ++ chars "--uuid-" ++ uuid ++ chars ".json"
  rw [List.append_assoc (chars "ts-" ++ ts) (chars "--") (chars "uuid-" ++ uuid),
    chars_dd_uuid, ← List.append_assoc (chars "ts-" ++ ts) (chars "--uuid-") uuid]

theorem recordAll_length (env : PredictorEnv) (tss uuids : Nat → List Char)
    (ps : List (JVal × JVal)) : ∀ i, (recordAll env tss uuids i ps).length = ps.length := by
  induction ps with
  | nil => intro i; rfl
  | cons hd tl ih =>
    intro i
    obtain ⟨d, p⟩ := hd
    rw [recordAll, List.length_cons, List.length_cons, ih (i + 1)]

theorem recordAll_getElem (env : PredictorEnv) (tss uuids : Nat → List Char)
    (ps : List (JVal × JVal)) :
    ∀ i j, (recordAll env tss uuids j ps)[i]? =
      ps[i]?.map (fun dp => record_invoke env (tss (j + i)) (uuids (j + i)) dp.1 dp.2) := by
  induction ps with
  | nil => intro i j; rfl
  | cons hd tl ih =>
    intro i j
    obtain ⟨d, p⟩ := hd
    cases i with
    | zero => rw [recordAll]; simp
    | succ i' =>
      rw [recordAll]
      simp only [List.getElem?_cons_succ]
      rw [ih i' (j + 1)]
      have hjadd : j + 1 + i' = j + (i' + 1) := by omega
      rw [hjadd]

theorem zip_map_self_getElem (f : JVal → JVal) (data : List JVal) :
    ∀ i : Nat, (data.zip (data.map f))[i]? = data[i]?.map (fun d => (d, f d)) := by
  induction data with
  | nil => intro i; rfl
  | cons d tl ih =>
    intro i
    cases i with
    | zero => simp
    | succ i' =>
      simp only [List.map_cons, List.zip_cons_cons, List.getElem?_cons_succ]
      exact ih i'

/-! ## Concrete instances used by the claim theorems -/

/-- The `test_nested_twice` mapping of the repository's codec tests. -/
def exC1 : JObj :=
  .cons (chars "a")
    (.obj (.cons (chars "b1")
      (.obj (.cons (chars "c1") (.num 3) (.cons (chars "d1") (.num 4) .nil)))
      (.cons (chars "b2")
        (.obj (.cons (chars "c2") (.num 5) (.cons (chars "d2") (.num 6) .nil)))
        .nil))) .nil

/-- The flat mapping `exC1` encodes to. -/
def exC1flat : List (List Char × List Char) :=
  [(chars "a.b1.c1", chars "3"), (chars "a.b1.d1", chars "4"),
   (chars "a.b2.c2", chars "5"), (chars "a.b2.d2", chars "6")]

/-- A two-entry mapping and `exPermB` its key-order swap. -/
def exPermA : JObj := .cons (chars "a") (.num 1) (.cons (chars "b") (.num 2) .nil)

/-- `exPermA` with the two entries in the other order. -/
def exPermB : JObj := .cons (chars "b") (.num 2) (.cons (chars "a") (.num 1) .nil)

/-- The flat mapping `exPermA` encodes to. -/
def exPermAflat : List (List Char × List Char) :=
  [(chars "a", chars "1"), (chars "b", chars "2")]

/-- The flat mapping `exPermB` encodes to. -/
def exPermBflat : List (List Char × List Char) :=
  [(chars "b", chars "2"), (chars "a", chars "1")]

/-- A Serve-style process environment with only `ML2P_MODEL_VERSION` and
`ML2P_RECORD_INVOKES` set. -/
def exServeEnv : List Char → Option (List Char) := fun k =>
  if k = chars "ML2P_MODEL_VERSION" then some (chars "v1")
  else if k = chars "ML2P_RECORD_INVOKES" then some (chars "true")
  else none

/-- A concrete predictor environment with recording on. -/
def envEx : PredictorEnv :=
  { s3 := { netloc := chars "bkt", s3root := chars "root" }
    model_version := chars "v1"
    record_invokes := true }

/-! ## The claims -/

/-- C6: when the training-job marker is absent, the environment is resolved
by `_serve_environ`: the kind is Serve; every configuration variable absent
from the process environment resolves to `none` (never an empty string);
`record_invokes` is true exactly when `ML2P_RECORD_INVOKES` equals the
literal string `"true"` (any other value, including absence, gives false);
and with only `ML2P_MODEL_VERSION = "v1"` and `ML2P_RECORD_INVOKES = "true"`
set, the result has kind Serve, `record_invokes = true` and no project. -/
theorem C6_serve_environ_resolution :
    (∀ osenv : List Char → Option (List Char),
      (serve_environ osenv).env_type = .serve ∧
      ((osenv (chars "ML2P_MODEL_VERSION") = none →
          (serve_environ osenv).model_version = none) ∧
       (osenv (chars "ML2P_PROJECT") = none → (serve_environ osenv).project = none) ∧
       (osenv (chars "ML2P_MODEL_CLS") = none → (serve_environ osenv).model_cls = none) ∧
       (osenv (chars "ML2P_S3_URL") = none → (serve_environ osenv).s3_url = none)) ∧
      ((serve_environ osenv).record_invokes = some true ↔
        osenv (chars "ML2P_RECORD_INVOKES") = some (chars "true")) ∧
      (osenv (chars "TRAINING_JOB_NAME") = none →
        ∀ hpFile, resolve_environ osenv hpFile = .ok (serve_environ osenv))) ∧
    serve_environ exServeEnv =
      { env_type := .serve, training_job_name := none,
        model_version := some (chars "v1"), record_invokes := some true,
        project := none, model_cls := none, s3_url := none } := by
  refine ⟨fun osenv => ⟨rfl, ⟨?_, ?_, ?_, ?_⟩, ?_, ?_⟩, by decide⟩
  · intro h; rw [serve_environ]; exact h
  · intro h; rw [serve_environ]; dsimp only; rw [h]; rfl
  · intro h; rw [serve_environ]; dsimp only; rw [h]; rfl
  · intro h; rw [serve_environ]; dsimp only; rw [h]; rfl
  · rw [serve_environ]
    dsimp only
    cases h : osenv (chars "ML2P_RECORD_INVOKES") with
    | none =>
      simp only [Option.getD_none, Option.some.injEq, decide_eq_true_eq]
      constructor
      · intro hx; exact absurd hx (by decide)
      · intro hx; exact absurd hx (by simp)
    | some v =>
      simp only [Option.getD_some, Option.some.injEq, decide_eq_true_eq]
  · intro h hpFile
    rw [resolve_environ, h]
    rfl

/-- C7: in the Train construction path an absent hyperparameters file is not
an error: the hyperparameter set is treated as empty, so `project`,
`model_cls` and `s3_url` all resolve to `none`; and in every successfully
built Train environment the training job name is the external marker and the
model version is always `none`. -/
theorem C7_train_environ_missing_file :
    (∀ marker : Option (List Char),
      train_environ none marker = .ok
        { env_type := .train, training_job_name := marker, model_version := none,
          record_invokes := none, project := none, model_cls := none,
          s3_url := none }) ∧
    (∀ (hpFile : Option (List (List Char × List Char)))
        (marker : Option (List Char)) (env : EnvironDict),
      train_environ hpFile marker = .ok env →
      env.env_type = .train ∧ env.training_job_name = marker ∧
        env.model_version = none ∧ env.record_invokes = none) := by
  constructor
  · intro marker; rfl
  · intro hpFile marker env h
    rw [train_environ] at h
    split at h
    · exact absurd h (by simp)
    · split at h
      · injection h with h2; subst h2; exact ⟨rfl, rfl, rfl, rfl⟩
      · injection h with h2; subst h2; exact ⟨rfl, rfl, rfl, rfl⟩
      · exact absurd h (by simp)

/-- C8: every successfully constructed Local environment has model version
`"local"` and recording off; construction fails with `LocalEnvError` when
the working folder does not exist; and either download operation fails with
`LocalEnvError` when no boto session was supplied. -/
theorem C8_local_env_guards :
    (∀ (fexists : Bool) (folder project s3url : List Char) (env : EnvironDict),
      mkLocalEnv fexists folder project s3url = .ok env →
      env.model_version = some (chars "local") ∧ env.record_invokes = some false) ∧
    (∀ folder project s3url : List Char,
      mkLocalEnv false folder project s3url = .error (.mk
        (chars "Local environment folder " ++ folder ++ chars " does not exist."))) ∧
    (∀ (σ : Type) (ds : List Char),
      download_dataset (none : Option σ) ds =
        .error (.mk (chars "Downloading datasets requires a boto session."))) ∧
    (∀ (σ : Type) (tj : List Char),
      download_model (none : Option σ) tj =
        .error (.mk (chars "Downloading models requires a boto session."))) := by
  refine ⟨?_, fun folder project s3url => rfl, fun σ ds => rfl, fun σ tj => rfl⟩
  intro fexists folder project s3url env h
  cases fexists with
  | false => exact absurd h (by rw [mkLocalEnv]; simp)
  | true =>
    rw [mkLocalEnv, if_pos rfl] at h
    injection h with h2
    subst h2
    exact ⟨rfl, rfl⟩


/-- C9: with the clock and uuid generator made explicit, recording one
prediction performs exactly one storage write whose key joins the identifier
pairs as `key-value` with `--` between pairs plus `.json` under a path scoped
by the model version, and whose payload is exactly
`\x7b"input": datum, "result": prediction\x7d`; a batch of N inputs performs N
such independent writes sharing the one precomputed metadata value but with
per-record identifiers, and identifiers with distinct uuids are distinct. -/
theorem C9_invocation_recording :
    (∀ (env : PredictorEnv) (ts uuid : List Char) (datum prediction : JVal),
      record_invoke env ts uuid datum prediction =
        { bucket := env.s3.netloc,
          key := env.s3.path (chars "/predictions/" ++ env.model_version ++
            '/' :: (chars "ts-" ++ ts ++ chars "--uuid-" ++ uuid ++ chars ".json")),
          body := dumps (.obj (.cons (chars "input") datum
            (.cons (chars "result") prediction .nil))) }) ∧
    (∀ (env : PredictorEnv) (ts uuid : List Char) (meta : JVal)
        (result : JVal → JVal) (data : JVal),
      env.record_invokes = true →
      (invoke env ts uuid meta result data).2 =
        [record_invoke env ts uuid data
          (.obj (.cons (chars "metadata") meta
            (.cons (chars "result") (result data) .nil)))]) ∧
    (∀ (env : PredictorEnv) (tss uuids : Nat → List Char) (meta : JVal)
        (result : JVal → JVal) (data : List JVal),
      env.record_invokes = true →
      ((batch_invoke env tss uuids meta result data).2.length = data.length ∧
       ∀ i : Nat, (batch_invoke env tss uuids meta result data).2[i]? =
         data[i]?.map (fun d => record_invoke env (tss i) (uuids i) d
           (.obj (.cons (chars "metadata") meta
             (.cons (chars "result") (result d) .nil)))))) ∧
    (∀ ts1 ts2 uuid1 uuid2 : List Char, uuid1 ≠ uuid2 →
      record_invoke_id ts1 uuid1 ≠ record_invoke_id ts2 uuid2) ∧
    record_invoke envEx (chars "20201012T000000") (chars "abcd") (.num 7) (.num 8) =
      { bucket := chars "bkt",
        key := chars "root/predictions/v1/ts-20201012T000000--uuid-abcd.json",
        body := chars "\x7b\"input\": 7, \"result\": 8\x7d" } := by
  refine ⟨?_, ?_, ?_, ?_, by decide⟩
  · intro env ts uuid datum prediction
    rw [record_invoke, recordFilename_id]
  · intro env ts uuid meta result data h
    rw [invoke]
    dsimp only
    rw [if_pos h]
  · intro env tss uuids meta result data h
    rw [batch_invoke]
    dsimp only
    rw [if_pos h]
    constructor
    · rw [recordAll_length]
      simp
    · intro i
      rw [recordAll_getElem, zip_map_self_getElem]
      simp only [Nat.zero_add, Option.map_map]
      rfl
  · intro ts1 ts2 uuid1 uuid2 hne heq
    rw [record_invoke_id, record_invoke_id] at heq
    simp only [List.cons.injEq, Prod.mk.injEq] at heq
    exact hne heq.2.1.2

/-- C1: for every nested configuration mapping with no duplicate keys (a
Python `dict` invariant) and no empty sub-mappings, whose encoding succeeds,
decoding the flat mapping produced by `encode` reconstructs the original
mapping: `decode (encode x) = x`; instantiated on the test suite's doubly
nested mapping. -/
theorem C1_decode_encode_roundtrip :
    (∀ (x : JObj) (flat : List (List Char × List Char)),
      noDupKeysObj x = true → noEmptySubObj x = true →
      encode x = .ok flat → decode flat = .ok x) ∧
    (noDupKeysObj exC1 = true ∧ noEmptySubObj exC1 = true ∧
      encode exC1 = .ok exC1flat ∧ decode exC1flat = .ok exC1) :=
  ⟨decode_encode, by decide, by decide, by decide, by decide⟩

/-- C2: `encode` fails if and only if some mapping key contains a literal
`'.'`, some accumulated dotted key exceeds 256 characters, some JSON-encoded
leaf value exceeds 256 characters, or the flat entry count exceeds 100; at
the boundaries, 100 entries, a 256-character key and a 256-character encoded
value succeed while 101 entries, a 257-character key and a 257-character
encoded value fail. -/
theorem C2_encode_error_characterization :
    (∀ x : JObj, (∃ e, encode x = .error e) ↔
      (hasDotKeyObj x = true ∨ hasLongKeyObj [] x = true ∨
        hasLongValObj x = true ∨ 100 < (flattenObj x).length)) ∧
    ((flattenObj (sampleEntries 0 100)).length = 100 ∧
      exceptOk (encode (sampleEntries 0 100)) = true) ∧
    ((flattenObj (sampleEntries 0 101)).length = 101 ∧
      encode (sampleEntries 0 101) = .error (.tooMany 101)) ∧
    ((List.replicate 256 'a').length = 256 ∧
      exceptOk (encode (.cons (List.replicate 256 'a') (.num 5) .nil)) = true) ∧
    encode (.cons (List.replicate 257 'a') (.num 5) .nil) =
      .error (.keyLength (List.replicate 257 'a')) ∧
    ((dumps (.str (List.replicate 254 'b'))).length = 256 ∧
      exceptOk (encode (.cons (chars "a") (.str (List.replicate 254 'b')) .nil)) = true) ∧
    ((dumps (.str (List.replicate 255 'b'))).length = 257 ∧
      encode (.cons (chars "a") (.str (List.replicate 255 'b')) .nil) =
        .error (.valueLength (dumps (.str (List.replicate 255 'b'))) (chars "a"))) :=
  ⟨encode_error_iff, ⟨by decide, by decide⟩, ⟨by decide, by decide⟩,
   ⟨by decide, by decide⟩, by decide, ⟨by decide, by decide⟩, by decide, by decide⟩

/-- C3 counterexample: the original claim fails for mappings that are equal
as Python values (`==`, order-insensitive for dicts at every depth) but
differ in the entry order of a dict *inside a list*: `json.dumps` preserves
that inner order, so the two encodings give different value strings for the
same flat key. -/
theorem C3_counterexample_dict_in_list :
    pyEqV 10 (.obj listDictA) (.obj listDictB) = true ∧
    exceptOk (encode listDictA) = true ∧ exceptOk (encode listDictB) = true ∧
    flatLookup (chars "a") ((encode listDictA).toOption.getD []) ≠
      flatLookup (chars "a") ((encode listDictB).toOption.getD []) := by decide

/-- C3 (amended): `encode` is deterministic under permutation of the entries
of mappings reached through mappings: two such reorderings of a mapping with
no duplicate keys encode to flat mappings with the same keys (as a
permutation) and the same value string for every key; instantiated on a
concrete two-entry swap. -/
theorem C3_encode_perm_deterministic :
    (∀ (x y : JObj) (fx fy : List (List Char × List Char)),
      ObjPerm x y → noDupKeysObj x = true →
      encode x = .ok fx → encode y = .ok fy →
      (fx.map Prod.fst).Perm (fy.map Prod.fst) ∧
        ∀ key, flatLookup key fx = flatLookup key fy) ∧
    (ObjPerm exPermA exPermB ∧
      encode exPermA = .ok exPermAflat ∧ encode exPermB = .ok exPermBflat ∧
      ((exPermAflat.map Prod.fst).Perm (exPermBflat.map Prod.fst) ∧
        ∀ key, flatLookup key exPermAflat = flatLookup key exPermBflat)) := by
  have hperm : ObjPerm exPermA exPermB :=
    ValPerm.objSwap (chars "a") (chars "b") (.num 1) (.num 2) .nil
  exact ⟨encode_perm_agree, hperm, by decide, by decide,
    encode_perm_agree exPermA exPermB exPermAflat exPermBflat hperm
      (by decide) (by decide) (by decide)⟩

/-- C4 counterexample: the program accepts `"test-model-0-0-dev\n"` as a
training-job name — CPython `$` also matches just before a trailing
newline — although that string is outside the claimed grammar, refuting
the original "returns normally iff the name matches the fixed grammar". -/
theorem C4_counterexample_trailing_newline :
    validate_name (chars "test-model-0-0-dev" ++ ['\n']) .trainingJob = .ok () ∧
    ¬ NameGrammar .trainingJob (chars "test-model-0-0-dev" ++ ['\n']) :=
  ⟨by decide, fun hg => absurd ((coreMatches_iff .trainingJob _).mpr hg) (by decide)⟩

/-- C4 (amended): `validate_name` succeeds exactly on names matching the
kind's grammar as CPython `re.match` applies the anchored regex — the
grammar word itself (dataset `<model>-<YYYYMMDD>`; training-job
`<model>-<major>-<minor>[-dev]`; model `<model>-<major>-<minor>-<patch>[-dev]`;
endpoint `<model>-<major>-<minor>-<patch>[-dev][-live|-analysis|-test]`,
`<model>` one or more alphanumerics/hyphens) or that word followed by one
trailing newline (`$`-before-newline) — and otherwise raises `NamingError`
with the kind-specific message; `"test-model-0-0-dev"` is a valid
training-job name and `"a wrong name"` is rejected for every kind. -/
theorem C4_validate_name_iff_grammar :
    (∀ (kind : ResourceKind) (name : List Char),
      (validate_name name kind = .ok () ↔ PyNameGrammar kind name) ∧
      (validate_name name kind = .ok () ∨
        validate_name name kind = .error (.mk (validationMessage kind)))) ∧
    validate_name (chars "test-model-0-0-dev") .trainingJob = .ok () ∧
    (∀ kind : ResourceKind,
      validate_name (chars "a wrong name") kind =
        .error (.mk (validationMessage kind))) := by
  refine ⟨fun kind name => ⟨?_, ?_⟩, by decide, fun kind => by cases kind <;> decide⟩
  · constructor
    · intro hok
      rw [← nameMatches_iff]
      rw [validate_name] at hok
      by_cases h : nameMatches kind name = true
      · exact h
      · rw [if_neg h] at hok
        exact absurd hok (by simp)
    · intro hg
      rw [validate_name, if_pos ((nameMatches_iff kind name).mpr hg)]
  · rw [validate_name]
    by_cases h : nameMatches kind name = true
    · rw [if_pos h]
      exact Or.inl rfl
    · rw [if_neg h]
      exact Or.inr rfl

/-- C5 counterexample: `training_job_name_for_model "model-1-0-2\n"`
returns `"model-1-0"` — CPython `$` matches before the trailing newline —
although the input does not match the model grammar, refuting the original
"raise NamingError on any input not matching their grammar". -/
theorem C5_counterexample_trailing_newline :
    training_job_name_for_model (chars "model-1-0-2" ++ ['\n']) =
      .ok (chars "model-1-0") ∧
    ¬ ModelName (chars "model-1-0-2" ++ ['\n']) :=
  ⟨by decide, fun hg => absurd ((coreMatches_iff .model _).mpr hg) (by decide)⟩

/-- C5 (amended): on every name matching the model grammar — with or
without the one trailing newline `re.match` tolerates —
`training_job_name_for_model` returns exactly `<model>-<major>-<minor>`
(patch and dev suffix stripped); likewise `model_name_for_endpoint` returns
exactly `<model>-<major>-<minor>-<patch>[-dev]` (stage suffix stripped, dev
marker preserved); both raise `NamingError`, with the `\x7b!r\x7d`-formatted
name in the message, exactly on the inputs whose `re.match` fails; and
`training_job_name_for_model "model-1-0-2-dev" = "model-1-0"`,
`model_name_for_endpoint "model-1-0-2-dev-live" = "model-1-0-2-dev"`,
`training_job_name_for_model "model-1-0-2\n" = "model-1-0"`, and a name
with a single quote is rendered with Python repr's double quotes. -/
theorem C5_name_derivations :
    (∀ (cs m maj mnr p : List Char) (dev : Bool),
      ModelDecomp cs m maj mnr p dev →
      training_job_name_for_model cs = .ok (m ++ '-' :: maj ++ '-' :: mnr)) ∧
    (∀ (core m maj mnr p : List Char) (dev : Bool),
      ModelDecomp core m maj mnr p dev →
      training_job_name_for_model (core ++ ['\n']) =
        .ok (m ++ '-' :: maj ++ '-' :: mnr)) ∧
    (∀ (cs m maj mnr p : List Char) (dev : Bool) (stage : Option Stage),
      EndpointDecomp cs m maj mnr p dev stage →
      model_name_for_endpoint cs =
        .ok (m ++ '-' :: maj ++ '-' :: mnr ++ '-' :: p ++
          (if dev then chars "-dev" else []))) ∧
    (∀ (core m maj mnr p : List Char) (dev : Bool) (stage : Option Stage),
      EndpointDecomp core m maj mnr p dev stage →
      model_name_for_endpoint (core ++ ['\n']) =
        .ok (m ++ '-' :: maj ++ '-' :: mnr ++ '-' :: p ++
          (if dev then chars "-dev" else []))) ∧
    (∀ cs : List Char, ¬ PyNameGrammar .model cs →
      training_job_name_for_model cs =
        .error (.mk (chars "Invalid model name " ++ pyRepr cs))) ∧
    (∀ cs : List Char, ¬ PyNameGrammar .endpoint cs →
      model_name_for_endpoint cs =
        .error (.mk (chars "Invalid endpoint name " ++ pyRepr cs))) ∧
    training_job_name_for_model (chars "model-1-0-2-dev") = .ok (chars "model-1-0") ∧
    model_name_for_endpoint (chars "model-1-0-2-dev-live") =
      .ok (chars "model-1-0-2-dev") ∧
    training_job_name_for_model (chars "model-1-0-2" ++ ['\n']) =
      .ok (chars "model-1-0") ∧
    training_job_name_for_model (chars "it's") =
      .error (.mk (chars "Invalid model name \"it's\"")) := by
  refine ⟨?_, ?_, ?_, ?_, ?_, ?_, by decide, by decide, by decide, by decide⟩
  · intro cs m maj mnr p dev h
    rw [training_job_name_for_model, reMatch_of_parse (parseModel_complete h)]
  · intro core m maj mnr p dev h
    rw [training_job_name_for_model,
      reMatch_nl (parseModel_no_newline (by rw [getLast?_append_right (by simp)]; rfl))
        (parseModel_complete h)]
  · intro cs m maj mnr p dev stage h
    rw [model_name_for_endpoint, reMatch_of_parse (parseEndpoint_complete h)]
  · intro core m maj mnr p dev stage h
    rw [model_name_for_endpoint,
      reMatch_nl (parseEndpoint_no_newline (by rw [getLast?_append_right (by simp)]; rfl))
        (parseEndpoint_complete h)]
  · intro cs hng
    rw [PyNameGrammar] at hng
    have h1 : parseModel cs = none := by
      cases hp : parseModel cs with
      | none => rfl
      | some r =>
        obtain ⟨⟨m, maj, mnr, p⟩, dev⟩ := r
        exact absurd (Or.inl ⟨m, maj, mnr, p, dev, parseModel_sound hp⟩) hng
    have hre : reMatch parseModel cs = none := by
      rw [reMatch, h1]
      dsimp only
      split
      · rename_i hlast
        cases hp : parseModel cs.dropLast with
        | none => rfl
        | some r =>
          obtain ⟨⟨m, maj, mnr, p⟩, dev⟩ := r
          exact absurd (Or.inr ⟨cs.dropLast, eq_dropLast_append_of_getLast? hlast,
            ⟨m, maj, mnr, p, dev, parseModel_sound hp⟩⟩) hng
      · rfl
    rw [training_job_name_for_model, hre]
  · intro cs hng
    rw [PyNameGrammar] at hng
    have h1 : parseEndpoint cs = none := by
      cases hp : parseEndpoint cs with
      | none => rfl
      | some r =>
        obtain ⟨⟨m, maj, mnr, p⟩, dev, stage⟩ := r
        exact absurd (Or.inl ⟨m, maj, mnr, p, dev, stage, parseEndpoint_sound hp⟩) hng
    have hre : reMatch parseEndpoint cs = none := by
      rw [reMatch, h1]
      dsimp only
      split
      · rename_i hlast
        cases hp : parseEndpoint cs.dropLast with
        | none => rfl
        | some r =>
          obtain ⟨⟨m, maj, mnr, p⟩, dev, stage⟩ := r
          exact absurd (Or.inr ⟨cs.dropLast, eq_dropLast_append_of_getLast? hlast,
            ⟨m, maj, mnr, p, dev, stage, parseEndpoint_sound hp⟩⟩) hng
      · rfl
    rw [model_name_for_endpoint, hre]

/-- C10: derived names re-validate against their target kind: every
successful output of `training_job_name_for_model` is accepted by
`validate_name` for kind training-job, and every successful output of
`model_name_for_endpoint` is accepted by `validate_name` for kind model;
instantiated on the two example derivations. -/
theorem C10_derived_names_revalidate :
    (∀ cs out : List Char, training_job_name_for_model cs = .ok out →
      validate_name out .trainingJob = .ok ()) ∧
    (∀ cs out : List Char, model_name_for_endpoint cs = .ok out →
      validate_name out .model = .ok ()) ∧
    validate_name (chars "model-1-0") .trainingJob = .ok () ∧
    validate_name (chars "model-1-0-2-dev") .model = .ok () := by
  refine ⟨?_, ?_, by decide, by decide⟩
  · intro cs out h
    rw [training_job_name_for_model] at h
    split at h
    · exact absurd h (by simp)
    · rename_i res m maj mnr p dev hre
      injection h with h2
      subst h2
      obtain ⟨cs2, hpm⟩ := reMatch_some hre
      obtain ⟨hcs, hm, hmaj, hmnr, hp⟩ := parseModel_sound hpm
      rw [validate_name, if_pos (by
        rw [nameMatches, Bool.or_eq_true]
        exact Or.inl ((coreMatches_iff .trainingJob _).mpr
          ⟨m, maj, mnr, false, by simp, hm, hmaj, hmnr⟩))]
  · intro cs out h
    rw [model_name_for_endpoint] at h
    split at h
    · exact absurd h (by simp)
    · rename_i res m maj mnr p dev stage hre
      injection h with h2
      subst h2
      obtain ⟨cs2, hpe⟩ := reMatch_some hre
      obtain ⟨hcs, hm, hmaj, hmnr, hp⟩ := parseEndpoint_sound hpe
      rw [validate_name, if_pos (by
        rw [nameMatches, Bool.or_eq_true]
        exact Or.inl ((coreMatches_iff .model _).mpr
          ⟨m, maj, mnr, p, dev, rfl, hm, hmaj, hmnr, hp⟩))]


end ML2P
